import Mathlib

/-!
Shallow embedding of the quick-lru cache (src/index.ts).

The cache keeps two insertion-ordered generations of entries, `cache`
(recent) and `oldCache` (stale), plus a counter `size` of inserts into
`cache` since the last rotation.  Keys and values are embedded as `Nat`;
JavaScript numbers that can be `NaN` or infinite (TTL arguments, expiry
timestamps, eviction counts) are embedded as `JSNum`, with finite values
carried as `Int` (milliseconds / counts).  `Date.now()` is passed in
explicitly as the `now : Int` argument of each operation.  The
`onEviction` callback is modelled by having each operation return the
list of `(key, value)` pairs it would pass to the callback; the callback
itself never influences the cache state in the source, so no callback
function is carried in the state.  JavaScript `Map`s are embedded as
association lists in insertion order; `Map.set` on an existing key
overwrites in place, otherwise appends.
-/

/-- Embedding of a JavaScript number as used by the cache: `NaN`, the two
infinities, or a finite value (restricted to integers). -/
inductive JSNum where
  | nan : JSNum
  | posInf : JSNum
  | negInf : JSNum
  | int (n : Int) : JSNum
deriving DecidableEq, Repr

/-- JavaScript truthiness of a number: `NaN` and `0` are falsy. -/
def JSNum.truthy : JSNum → Bool
  | .nan => false
  | .int n => n != 0
  | _ => true

/-- JavaScript comparison `e <= t` of a number `e` against a finite `t`:
`NaN <= t` and `+Infinity <= t` are false, `-Infinity <= t` is true. -/
def JSNum.jle (e : JSNum) (t : Int) : Bool :=
  match e with
  | .nan => false
  | .posInf => false
  | .negInf => true
  | .int n => n ≤ t

/-- JavaScript addition `t + e` of a finite number `t` and a number `e`
(`Date.now() + maxAge` in `set`). -/
def JSNum.addTo (e : JSNum) (t : Int) : JSNum :=
  match e with
  | .nan => .nan
  | .posInf => .posInf
  | .negInf => .negInf
  | .int n => .int (t + n)

/-- JavaScript `Math.trunc(Math.min(e, m))` for a number `e` against a finite
integer `m`; used by `evict`.  On the integer fragment `Math.trunc` is the
identity, so only `Math.min` remains.  (`NaN`/`-Infinity` arguments never
reach this point in `evict` because of its early guard.) -/
def JSNum.minTrunc (e : JSNum) (m : Int) : Int :=
  match e with
  | .nan => 0
  | .posInf => m
  | .negInf => -1
  | .int n => min n m

/-- A cache entry: `{ value, expiry? }`; `expiry` absent (`none`) means the
stored `expiry` field is `undefined`. -/
structure CacheItem where
  value : Nat
  expiry : Option JSNum
deriving DecidableEq, Repr

/-- Truthiness of the stored `expiry` field (`item.expiry ?` in
`#getItemValue`): `undefined`, `0` and `NaN` are falsy. -/
def expiryTruthy : Option JSNum → Bool
  | none => false
  | some e => e.truthy

/-- The check of `#deleteIfExpired`:
`typeof item.expiry === 'number' && item.expiry <= Date.now()`. -/
def expiredAt (it : CacheItem) (now : Int) : Bool :=
  match it.expiry with
  | some e => e.jle now
  | none => false

abbrev Entry := Nat × CacheItem

/-- A generation: a JavaScript `Map` from keys to entries, embedded as an
association list in insertion order. -/
abbrev EMap := List Entry

/-- JavaScript `map.get(key)` (first entry with the key). -/
def mget (m : EMap) (k : Nat) : Option CacheItem :=
  (m.find? (fun e => e.1 == k)).map (fun e => e.2)

/-- JavaScript `map.has(key)`. -/
def hasKey (m : EMap) (k : Nat) : Bool :=
  (m.find? (fun e => e.1 == k)).isSome

/-- JavaScript `map.set(key, it)`: overwrite in place when the key exists
(keeping its position in insertion order), otherwise append. -/
def msetE (m : EMap) (k : Nat) (it : CacheItem) : EMap :=
  if hasKey m k then m.map (fun e => if e.1 == k then (k, it) else e)
  else m ++ [(k, it)]

/-- JavaScript `map.delete(key)` (the resulting map). -/
def eraseKey (m : EMap) (k : Nat) : EMap :=
  m.filter (fun e => e.1 != k)

/-- The sequence of `(key, value)` arguments of `onEviction` calls an
operation performs, in call order. -/
abbrev Events := List (Nat × Nat)

/-- The cache state: `#size` (insert counter), `#cache` (recent
generation), `#oldCache` (stale generation), `#maxSize`, `#maxAge`
(the stored default TTL; the constructor turns falsy values into
`+Infinity` via `options.maxAge || Number.POSITIVE_INFINITY`). -/
structure LRU where
  size : Int
  cache : EMap
  oldCache : EMap
  maxSize : Nat
  maxAge : JSNum
deriving DecidableEq, Repr

/-- A freshly constructed cache (after the constructor validated
`maxSize > 0` and `maxAge != 0`); `maxAge` is the stored default TTL. -/
def initLRU (maxSize : Nat) (maxAge : JSNum) : LRU :=
  ⟨0, [], [], maxSize, maxAge⟩

/-- The `delete(key)` method: remove the key from both generations,
decrement `#size` when the recent generation had it, return whether
either generation had it. -/
def LRU.delete (s : LRU) (k : Nat) : Bool × LRU :=
  let deleted := hasKey s.cache k
  (hasKey s.oldCache k || deleted,
   { s with cache := eraseKey s.cache k,
            oldCache := eraseKey s.oldCache k,
            size := if deleted then s.size - 1 else s.size })

/-- The method `#deleteIfExpired(key, item)`: when the entry has a numeric
expiry that is `<= Date.now()`, fire `onEviction` and return the result of
`this.delete(key)`; otherwise return false without touching the state. -/
def LRU.deleteIfExpired (s : LRU) (now : Int) (k : Nat) (it : CacheItem) :
    Bool × LRU × Events :=
  if expiredAt it now then
    let (b, s') := s.delete k
    (b, s', [(k, it.value)])
  else (false, s, [])

/-- The method `#getOrDeleteIfExpired(key, item)`. -/
def LRU.getOrDeleteIfExpired (s : LRU) (now : Int) (k : Nat) (it : CacheItem) :
    Option Nat × LRU × Events :=
  let (d, s', ev) := s.deleteIfExpired now k it
  (if d then none else some it.value, s', ev)

/-- The method `#getItemValue(key, item)`: expiry-check-and-delete only
when the stored expiry is truthy. -/
def LRU.getItemValue (s : LRU) (now : Int) (k : Nat) (it : CacheItem) :
    Option Nat × LRU × Events :=
  if expiryTruthy it.expiry then s.getOrDeleteIfExpired now k it
  else (some it.value, s, [])

/-- The list of `onEviction` arguments fired by `#emitEvictions` over a raw
entry collection. -/
def emitEvictions (l : List Entry) : Events :=
  l.map (fun e => (e.1, e.2.value))

/-- The private method `#set(key, value)`: insert into the recent
generation, bump `#size`, and rotate when `#size` reaches `#maxSize`
(fire `onEviction` for every raw entry of the outgoing stale generation,
demote the recent generation, start a fresh one). -/
def LRU.setInternal (s : LRU) (k : Nat) (it : CacheItem) : LRU × Events :=
  let cache' := msetE s.cache k it
  if s.size + 1 ≥ (s.maxSize : Int) then
    ({ s with size := 0, oldCache := cache', cache := [] },
     emitEvictions s.oldCache)
  else
    ({ s with cache := cache', size := s.size + 1 }, [])

/-- The method `#moveToRecent(key, item)`: remove from the stale
generation, then run the insertion path. -/
def LRU.moveToRecent (s : LRU) (k : Nat) (it : CacheItem) : LRU × Events :=
  LRU.setInternal { s with oldCache := eraseKey s.oldCache k } k it

/-- The `get(key)` method.  A stale hit that is not expired is promoted
into the recent generation. -/
def LRU.get (s : LRU) (k : Nat) (now : Int) : Option Nat × LRU × Events :=
  match mget s.cache k with
  | some it => s.getItemValue now k it
  | none =>
    match mget s.oldCache k with
    | some it =>
      let (d, s', ev) := s.deleteIfExpired now k it
      if d then (none, s', ev)
      else
        let (s'', ev') := s'.moveToRecent k it
        (some it.value, s'', ev ++ ev')
    | none => (none, s, [])

/-- The TTL argument of `set`: the `maxAge` option may be absent (use the
stored default), a number, or a non-number value (the `typeof` guard then
fails). -/
inductive TTLArg where
  | absent : TTLArg
  | num (a : JSNum) : TTLArg
  | nonNumber : TTLArg
deriving DecidableEq, Repr

/-- The expiry stored by `set`:
`typeof maxAge === 'number' && maxAge !== Number.POSITIVE_INFINITY ?
Date.now() + maxAge : undefined`, where `maxAge` defaults to the stored
`#maxAge` (always a number in the state). -/
def computeExpiry (arg : TTLArg) (dflt : JSNum) (now : Int) : Option JSNum :=
  match arg with
  | .nonNumber => none
  | .absent => if dflt = .posInf then none else some (dflt.addTo now)
  | .num a => if a = .posInf then none else some (a.addTo now)

/-- The `set(key, value, {maxAge})` method: in-place overwrite when the
recent generation has the key, otherwise the insertion path. -/
def LRU.set (s : LRU) (k v : Nat) (arg : TTLArg) (now : Int) : LRU × Events :=
  let it : CacheItem := ⟨v, computeExpiry arg s.maxAge now⟩
  if hasKey s.cache k then
    ({ s with cache := msetE s.cache k it }, [])
  else s.setInternal k it

/-- The `has(key)` method: expiry-aware existence check with lazy
deletion, no promotion. -/
def LRU.has (s : LRU) (k : Nat) (now : Int) : Bool × LRU × Events :=
  match mget s.cache k with
  | some it =>
    let (d, s', ev) := s.deleteIfExpired now k it
    (!d, s', ev)
  | none =>
    match mget s.oldCache k with
    | some it =>
      let (d, s', ev) := s.deleteIfExpired now k it
      (!d, s', ev)
    | none => (false, s, [])

/-- The `peek(key)` method: like `get` on the hit generation but through
`#getItemValue` for both generations and without promotion. -/
def LRU.peek (s : LRU) (k : Nat) (now : Int) : Option Nat × LRU × Events :=
  match mget s.cache k with
  | some it => s.getItemValue now k it
  | none =>
    match mget s.oldCache k with
    | some it => s.getItemValue now k it
    | none => (none, s, [])

/-- The `clear()` method. -/
def LRU.clear (s : LRU) : LRU :=
  { s with cache := [], oldCache := [], size := 0 }

/-- One step of an enumeration loop that expiry-checks every entry of the
iterated snapshot `l` and yields the survivors (the raw-entry loops of
`#entriesAscending` over `#cache`, of `entriesDescending` over the
reversed `#cache` snapshot, and of the plain iterator over `#cache`). -/
def sweepAll (now : Int) : List Entry → LRU → List Entry × LRU × Events
  | [], s => ([], s, [])
  | (k, it) :: rest, s =>
    let (d, s', ev) := s.deleteIfExpired now k it
    let (ys, s'', ev') := sweepAll now rest s'
    (if d then ys else (k, it) :: ys, s'', ev ++ ev')

/-- One step of an enumeration loop over a stale-generation snapshot `l`
that first skips keys present in the live recent generation and
expiry-checks the rest (the stale-generation loops of
`#entriesAscending`, `entriesDescending` and the plain iterator). -/
def sweepSkip (now : Int) : List Entry → LRU → List Entry × LRU × Events
  | [], s => ([], s, [])
  | (k, it) :: rest, s =>
    if hasKey s.cache k then sweepSkip now rest s
    else
      let (d, s', ev) := s.deleteIfExpired now k it
      let (ys, s'', ev') := sweepSkip now rest s'
      (if d then ys else (k, it) :: ys, s'', ev ++ ev')

/-- The generator `#entriesAscending()`: stale generation in insertion
order skipping keys present in the recent generation, then the recent
generation, with lazy expiry pruning; yields raw entries. -/
def LRU.entriesAscendingRaw (s : LRU) (now : Int) : List Entry × LRU × Events :=
  let (ys₁, s₁, ev₁) := sweepSkip now s.oldCache s
  let (ys₂, s₂, ev₂) := sweepAll now s₁.cache s₁
  (ys₁ ++ ys₂, s₂, ev₁ ++ ev₂)

/-- The public `entriesAscending()` iterable: `#entriesAscending` with
entries projected to `[key, value]`. -/
def LRU.entriesAscending (s : LRU) (now : Int) : Events × LRU × Events :=
  let (ys, s', ev) := s.entriesAscendingRaw now
  (ys.map (fun e => (e.1, e.2.value)), s', ev)

/-- The `entriesDescending()` iterable: reverse-order walk of a recent
generation snapshot, then reverse-order walk of a stale generation
snapshot excluding keys present in the (live) recent generation. -/
def LRU.entriesDescending (s : LRU) (now : Int) : Events × LRU × Events :=
  let (ys₁, s₁, ev₁) := sweepAll now s.cache.reverse s
  let (ys₂, s₂, ev₂) := sweepSkip now s₁.oldCache.reverse s₁
  ((ys₁ ++ ys₂).map (fun e => (e.1, e.2.value)), s₂, ev₁ ++ ev₂)

/-- The plain `[Symbol.iterator]()`: recent generation first, then the
stale generation excluding keys present in the recent generation. -/
def LRU.iterPlain (s : LRU) (now : Int) : Events × LRU × Events :=
  let (ys₁, s₁, ev₁) := sweepAll now s.cache s
  let (ys₂, s₂, ev₂) := sweepSkip now s₁.oldCache s₁
  ((ys₁ ++ ys₂).map (fun e => (e.1, e.2.value)), s₂, ev₁ ++ ev₂)

/-- The `resize(newSize)` method.  `newSize = 0` embeds the thrown
`TypeError` (thrown before any mutation, so the state is unchanged).
`new Map(items)` is embedded as the entry list itself (the materialized
ascending list has pairwise distinct keys). -/
def LRU.resize (s : LRU) (newSize : Nat) (now : Int) : LRU × Events :=
  if newSize = 0 then (s, [])
  else
    let (items, s₁, ev) := s.entriesAscendingRaw now
    let removeCount : Int := (items.length : Int) - (newSize : Int)
    if removeCount < 0 then
      ({ s₁ with cache := items, oldCache := [], size := (items.length : Int),
                 maxSize := newSize }, ev)
    else
      ({ s₁ with oldCache := items.drop removeCount.toNat, cache := [],
                 size := 0, maxSize := newSize },
       ev ++ emitEvictions (items.take removeCount.toNat))

/-- The `evict(count)` method.  `count` is embedded as a `JSNum` (the
default argument `1` is `JSNum.int 1`).  The early guard
`!requested || requested <= 0` returns before materializing anything. -/
def LRU.evict (s : LRU) (count : JSNum) (now : Int) : LRU × Events :=
  if !count.truthy || count.jle 0 then (s, [])
  else
    let (items, s₁, ev) := s.entriesAscendingRaw now
    let evictCount : Int := count.minTrunc (max ((items.length : Int) - 1) 0)
    if evictCount ≤ 0 then (s₁, ev)
    else
      ({ s₁ with oldCache := items.drop evictCount.toNat, cache := [],
                 size := 0 },
       ev ++ emitEvictions (items.take evictCount.toNat))

/-- The `size` getter: `#oldCache.size` when the insert counter is falsy,
otherwise `min(#size + |stale keys not in recent|, #maxSize)`. -/
def LRU.sizeGetter (s : LRU) : Int :=
  if s.size = 0 then (s.oldCache.length : Int)
  else
    min (s.size + ((s.oldCache.filter (fun e => !hasKey s.cache e.1)).length : Int))
      (s.maxSize : Int)

/-- A public operation of the cache, with the `Date.now()` value at which
it runs. -/
inductive Op where
  | get (k : Nat) (now : Int)
  | set (k v : Nat) (ttl : TTLArg) (now : Int)
  | has (k : Nat) (now : Int)
  | peek (k : Nat) (now : Int)
  | del (k : Nat)
  | clear
  | resize (n : Nat) (now : Int)
  | evict (c : JSNum) (now : Int)
  | iterA (now : Int)
  | iterD (now : Int)
  | iterP (now : Int)
deriving DecidableEq, Repr

/-- The state transition and `onEviction` events of one public operation. -/
def stepEv (s : LRU) : Op → LRU × Events
  | .get k now => let (_, s', ev) := s.get k now; (s', ev)
  | .set k v ttl now => s.set k v ttl now
  | .has k now => let (_, s', ev) := s.has k now; (s', ev)
  | .peek k now => let (_, s', ev) := s.peek k now; (s', ev)
  | .del k => ((s.delete k).2, [])
  | .clear => (s.clear, [])
  | .resize n now => s.resize n now
  | .evict c now => s.evict c now
  | .iterA now => let (_, s', ev) := s.entriesAscending now; (s', ev)
  | .iterD now => let (_, s', ev) := s.entriesDescending now; (s', ev)
  | .iterP now => let (_, s', ev) := s.iterPlain now; (s', ev)

/-- The state after a sequence of public operations. -/
def execTrace (s : LRU) (ops : List Op) : LRU :=
  ops.foldl (fun s op => (stepEv s op).1) s

/-- Whether an operation is an `evict` call. -/
def isEvict : Op → Bool
  | .evict _ _ => true
  | _ => false

/-- Whether an operation belongs to the basic segmented-store interface
(`get`, `set`, `has`, `peek`, `delete`, `clear`). -/
def isBasic : Op → Bool
  | .get _ _ => true
  | .set _ _ _ _ => true
  | .has _ _ => true
  | .peek _ _ => true
  | .del _ => true
  | .clear => true
  | _ => false

/-- Keys of the two generation maps are pairwise distinct. -/
def NodupKeys (m : EMap) : Prop := (m.map Prod.fst).Nodup

/-- The structural invariant every reachable cache state satisfies:
positive capacity, the insert counter equals the recent generation's
entry count and stays below the capacity, and both generations have
pairwise distinct keys. -/
structure WF (s : LRU) : Prop where
  maxSize_pos : 1 ≤ s.maxSize
  size_eq : s.size = (s.cache.length : Int)
  cache_lt : s.cache.length < s.maxSize
  nodup_cache : NodupKeys s.cache
  nodup_old : NodupKeys s.oldCache

/-- The stale generation holds at most `maxSize` entries (holds for every
reachable state of an `evict`-free run; `evict` can break it). -/
def OldBnd (s : LRU) : Prop := s.oldCache.length ≤ s.maxSize

/-- Erase a list of keys from a generation, one `map.delete` at a time. -/
def eraseKeys (m : EMap) (ks : List Nat) : EMap := ks.foldl eraseKey m

/-- Keys lazily deleted by a skipping enumeration pass over the snapshot
`l`: entries not shadowed by the recent generation `C` and expired. -/
def skipDelKeys (now : Int) (C : EMap) (l : List Entry) : List Nat :=
  (l.filter (fun e => !hasKey C e.1 && expiredAt e.2 now)).map Prod.fst

/-- Keys lazily deleted by a full enumeration pass over the snapshot `l`:
the expired entries. -/
def allDelKeys (now : Int) (l : List Entry) : List Nat :=
  (l.filter (fun e => expiredAt e.2 now)).map Prod.fst

/-- The entries `#entriesAscending` yields, computed directly from the
two generations: live stale entries not shadowed by the recent
generation, then live recent entries. -/
def ascPure (s : LRU) (now : Int) : List Entry :=
  s.oldCache.filter (fun e => !hasKey s.cache e.1 && !expiredAt e.2 now) ++
    s.cache.filter (fun e => !expiredAt e.2 now)

/-- Ghost bookkeeping for the insert counter over the basic operations,
modelled from the spec: the first component counts keys inserted into
the recent generation via the insertion path since the last rotation (or
clear), the second counts entries since removed from the recent
generation (by `delete` or by lazy expiration); both reset on rotation
and on `clear`.  The branching mirrors the decision structure of the
corresponding operations. -/
def ghostStep (s : LRU) (g : Int × Int) : Op → Int × Int
  | .set k _ _ _ =>
    if hasKey s.cache k then g
    else if s.size + 1 ≥ (s.maxSize : Int) then (0, 0) else (g.1 + 1, g.2)
  | .get k now =>
    match mget s.cache k with
    | some it =>
      if expiryTruthy it.expiry && expiredAt it now then (g.1, g.2 + 1) else g
    | none =>
      match mget s.oldCache k with
      | some it =>
        if expiredAt it now then g
        else if s.size + 1 ≥ (s.maxSize : Int) then (0, 0) else (g.1 + 1, g.2)
      | none => g
  | .has k now =>
    match mget s.cache k with
    | some it => if expiredAt it now then (g.1, g.2 + 1) else g
    | none => g
  | .peek k now =>
    match mget s.cache k with
    | some it =>
      if expiryTruthy it.expiry && expiredAt it now then (g.1, g.2 + 1) else g
    | none => g
  | .del k => if hasKey s.cache k then (g.1, g.2 + 1) else g
  | .clear => (0, 0)
  | _ => g

/-- Run a trace while maintaining the ghost insert/removal counters. -/
def ghostExec (s : LRU) (g : Int × Int) : List Op → LRU × Int × Int
  | [] => (s, g)
  | op :: t => ghostExec (stepEv s op).1 (ghostStep s g op) t

/-- Modelled from the spec: the expiry rule claim C4 states — the per-call
override when it is numeric and finite, else the default TTL when that is
finite, else no expiry; non-numeric or non-finite overrides (`NaN`,
`±Infinity`, non-number) fall back to the default TTL. -/
def specExpiryC4 (arg : TTLArg) (dflt : JSNum) (now : Int) : Option JSNum :=
  match arg with
  | .num (.int q) => some (.int (now + q))
  | _ =>
    match dflt with
    | .int q => some (.int (now + q))
    | _ => none

/-- Modelled from the spec, as amended: the stored expiry is
`now + override` whenever the override is of number type and different
from `+Infinity` (so `NaN` and `-Infinity` overrides yield `NaN` and
`-Infinity` expiries instead of falling back); a `+Infinity` or
non-number override yields no expiry; an absent override uses the
default TTL the same way. -/
def specExpiryAmended (arg : TTLArg) (dflt : JSNum) (now : Int) : Option JSNum :=
  match arg with
  | .nonNumber => none
  | .num a => if a = .posInf then none else some (a.addTo now)
  | .absent => if dflt = .posInf then none else some (dflt.addTo now)

/-- A batch of subsequent `set` calls (key, value, TTL argument, time). -/
def runSets (s : LRU) (l : List (Nat × Nat × TTLArg × Int)) : LRU :=
  l.foldl (fun s q => (s.set q.1 q.2.1 q.2.2.1 q.2.2.2).1) s

/-- The inductive invariant behind promotion survival: the promoted key
holds a never-expiring entry either in the recent generation (with
enough headroom for `b` more fresh inserts before the rotation after
next discards it) or in the stale generation (with enough headroom for
`b` more fresh inserts before the next rotation). -/
def SurvInv (k : Nat) (b : Nat) (s : LRU) : Prop :=
  (s.size = (s.cache.length : Int) ∧ s.cache.length < s.maxSize ∧ 1 ≤ s.maxSize) ∧
    ((∃ v, mget s.cache k = some ⟨v, none⟩) ∧
        s.cache.length + b ≤ 2 * s.maxSize - 1 ∨
      (∃ v, mget s.oldCache k = some ⟨v, none⟩) ∧ hasKey s.cache k = false ∧
        s.cache.length + b ≤ s.maxSize - 1)

/-- A concrete cache state used as the witness input of the `evict`
characterisation. -/
def evictDemo : LRU :=
  ⟨2, [(1, ⟨10, none⟩), (2, ⟨20, none⟩)], [(3, ⟨30, none⟩)], 4, .posInf⟩

/-- The concrete trace used as the witness input of the promotion-survival
theorem: with `maxSize = 3`, three inserts rotate and leave keys 1..3
stale. -/
def promoteTrace : List Op :=
  [.set 1 1 .absent 0, .set 2 2 .absent 0, .set 3 3 .absent 0]

/-- The fresh inserts that follow the promotion in the witness. -/
def promoteSets : List (Nat × Nat × TTLArg × Int) :=
  [(4, 4, .absent, 0), (5, 5, .absent, 0)]

-- Sanity checks of the embedding against the repository's test suite.

example :
    let s := execTrace (initLRU 2 .posInf)
      [.set 1 1 .absent 0, .set 2 2 .absent 0]
    ((s.get 1 0).1 = some 1) ∧ ((s.get 3 0).1 = none) := by decide

example :
    -- the '.get() - limit' test: 1,2, get 1, 3, get 1, 4, get 1, 5 → has 1
    let s := execTrace (initLRU 2 .posInf)
      [.set 1 1 .absent 0, .set 2 2 .absent 0, .get 1 0, .set 3 3 .absent 0,
       .get 1 0, .set 4 4 .absent 0, .get 1 0, .set 5 5 .absent 0]
    (s.has 1 0).1 = true := by decide

example :
    -- the '.set() - limit' test
    let s := execTrace (initLRU 2 .posInf)
      [.set 10 1 .absent 0, .set 20 2 .absent 0, .get 10 0, .get 20 0,
       .set 30 3 .absent 0, .set 40 4 .absent 0]
    ((s.has 10 0).1 = false) ∧ ((s.has 20 0).1 = false) ∧
      ((s.has 30 0).1 = true) ∧ ((s.has 40 0).1 = true) ∧ s.sizeGetter = 2 := by
  decide

example :
    -- 'entriesAscending enumerates cache items oldest-first'
    let s := execTrace (initLRU 3 .posInf)
      [.set 1 1 .absent 0, .set 2 2 .absent 0, .set 3 3 .absent 0,
       .set 3 7 .absent 0, .set 2 8 .absent 0]
    (s.entriesAscending 0).1 = [(1, 1), (3, 7), (2, 8)] := by decide

example :
    -- 'entriesDescending enumerates cache items newest-first'
    let s := execTrace (initLRU 3 .posInf)
      [.set 1 1 .absent 0, .set 2 2 .absent 0, .set 3 8 .absent 0,
       .set 1 4 .absent 0, .set 4 3 .absent 0]
    (s.entriesDescending 0).1 = [(4, 3), (1, 4), (3, 8), (2, 2)] := by decide

example :
    -- lazy expiration: set k with ttl 100 at t=0; at t=200 get misses and
    -- fires the eviction callback
    let s := (LRU.set (initLRU 10 .posInf) 1 5 (.num (.int 100)) 0).1
    ((s.get 1 200).1 = none) ∧ ((s.get 1 200).2.2 = [(1, 5)]) := by decide

example :
    -- '.evict() removes least recently used items'
    let s := execTrace (initLRU 5 .posInf)
      [.set 1 1 .absent 0, .set 2 2 .absent 0, .set 3 3 .absent 0,
       .set 4 4 .absent 0, .set 5 5 .absent 0, .evict (.int 2) 0]
    s.sizeGetter = 3 ∧ ((s.has 1 0).1 = false) ∧ ((s.has 3 0).1 = true) := by
  decide

-- ## Lemmas about the association-list embedding of JavaScript Maps

theorem hasKey_cons (k' : Nat) (it : CacheItem) (m : EMap) (k : Nat) :
    hasKey ((k', it) :: m) k = (k' == k || hasKey m k) := by
  simp only [hasKey, List.find?_cons]
  cases hb : (k' == k) <;> simp [hb]

theorem mget_cons (k' : Nat) (it : CacheItem) (m : EMap) (k : Nat) :
    mget ((k', it) :: m) k = if k' == k then some it else mget m k := by
  simp only [mget, List.find?_cons]
  cases hb : (k' == k) <;> simp [hb]

theorem mget_isSome_eq (m : EMap) (k : Nat) : (mget m k).isSome = hasKey m k := by
  simp [mget, hasKey]

theorem mget_eq_none_of_not_has {m : EMap} {k : Nat} (h : hasKey m k = false) :
    mget m k = none := by
  have := mget_isSome_eq m k
  rw [h] at this
  exact Option.not_isSome_iff_eq_none.mp (by simp [this])

theorem hasKey_of_mget_some {m : EMap} {k : Nat} {it : CacheItem}
    (h : mget m k = some it) : hasKey m k = true := by
  have := mget_isSome_eq m k
  rw [h] at this
  simpa using this.symm

theorem hasKey_true_iff {m : EMap} {k : Nat} :
    hasKey m k = true ↔ ∃ it, (k, it) ∈ m := by
  simp only [hasKey, List.find?_isSome]
  constructor
  · rintro ⟨⟨k', it⟩, hmem, hpred⟩
    simp only [beq_iff_eq] at hpred
    subst hpred
    exact ⟨it, hmem⟩
  · rintro ⟨it, hmem⟩
    exact ⟨(k, it), hmem, by simp⟩

theorem hasKey_false_iff {m : EMap} {k : Nat} :
    hasKey m k = false ↔ ∀ e ∈ m, e.1 ≠ k := by
  rw [← Bool.not_eq_true, hasKey_true_iff]
  constructor
  · intro h e hmem hk
    exact h ⟨e.2, by simpa [← hk] using hmem⟩
  · rintro h ⟨it, hmem⟩
    exact h (k, it) hmem rfl

theorem hasKey_iff_mem_keys {m : EMap} {k : Nat} :
    hasKey m k = true ↔ k ∈ m.map Prod.fst := by
  rw [hasKey_true_iff]
  constructor
  · rintro ⟨it, hmem⟩
    exact List.mem_map.mpr ⟨(k, it), hmem, rfl⟩
  · intro h
    rcases List.mem_map.mp h with ⟨e, hmem, hk⟩
    exact ⟨e.2, by simpa [← hk] using hmem⟩

theorem mget_mem {m : EMap} {k : Nat} {it : CacheItem}
    (h : mget m k = some it) : (k, it) ∈ m := by
  simp only [mget, Option.map_eq_some'] at h
  rcases h with ⟨e, hfind, he⟩
  have hp := List.find?_some hfind
  have hm := List.mem_of_find?_eq_some hfind
  simp only [beq_iff_eq] at hp
  have : e = (k, it) := by
    cases e
    simp_all
  rwa [this] at hm

theorem eraseKey_of_not_has {m : EMap} {k : Nat} (h : hasKey m k = false) :
    eraseKey m k = m := by
  rw [eraseKey, List.filter_eq_self]
  intro e hmem
  simpa using (hasKey_false_iff.mp h) e hmem

theorem hasKey_eraseKey_self (m : EMap) (k : Nat) :
    hasKey (eraseKey m k) k = false := by
  rw [hasKey_false_iff]
  intro e hmem
  have := List.of_mem_filter hmem
  simpa using this

theorem hasKey_eraseKey_le {m : EMap} {k j : Nat}
    (h : hasKey (eraseKey m k) j = true) : hasKey m j = true := by
  rcases hasKey_true_iff.mp h with ⟨it, hmem⟩
  exact hasKey_true_iff.mpr ⟨it, List.mem_of_mem_filter hmem⟩

theorem nodup_eraseKey {m : EMap} (k : Nat) (h : NodupKeys m) :
    NodupKeys (eraseKey m k) := by
  unfold NodupKeys at *
  exact ((List.filter_sublist m).map Prod.fst).nodup h

theorem length_eraseKey_succ {m : EMap} {k : Nat} (hn : NodupKeys m)
    (h : hasKey m k = true) : (eraseKey m k).length + 1 = m.length := by
  induction m with
  | nil => simp [hasKey] at h
  | cons e rest ih =>
    obtain ⟨k', it⟩ := e
    rw [hasKey_cons] at h
    have hn2 := List.nodup_cons.mp hn
    by_cases hk : k' = k
    · subst hk
      have hrest : hasKey rest k' = false := by
        rw [hasKey_false_iff]
        intro e hmem he
        exact hn2.1 (he ▸ List.mem_map.mpr ⟨e, hmem, rfl⟩)
      rw [show eraseKey ((k', it) :: rest) k' = eraseKey rest k' by
        simp [eraseKey, List.filter_cons]]
      rw [eraseKey_of_not_has hrest]
      simp
    · have hrest : hasKey rest k = true := by simpa [hk] using h
      rw [show eraseKey ((k', it) :: rest) k = (k', it) :: eraseKey rest k by
        simp [eraseKey, List.filter_cons, hk]]
      have := ih hn2.2 hrest
      simp only [List.length_cons]
      omega

theorem length_eraseKey_le (m : EMap) (k : Nat) :
    (eraseKey m k).length ≤ m.length :=
  List.length_filter_le _ m

theorem msetE_of_not_has {m : EMap} {k : Nat} (it : CacheItem)
    (h : hasKey m k = false) : msetE m k it = m ++ [(k, it)] := by
  simp [msetE, h]

theorem msetE_of_has {m : EMap} {k : Nat} (it : CacheItem)
    (h : hasKey m k = true) :
    msetE m k it = m.map (fun e => if e.1 == k then (k, it) else e) := by
  simp [msetE, h]

theorem length_msetE_of_has {m : EMap} {k : Nat} (it : CacheItem)
    (h : hasKey m k = true) : (msetE m k it).length = m.length := by
  simp [msetE_of_has it h]

theorem length_msetE_of_not_has {m : EMap} {k : Nat} (it : CacheItem)
    (h : hasKey m k = false) : (msetE m k it).length = m.length + 1 := by
  simp [msetE_of_not_has it h]

theorem keys_msetE_of_has {m : EMap} {k : Nat} (it : CacheItem)
    (h : hasKey m k = true) :
    (msetE m k it).map Prod.fst = m.map Prod.fst := by
  rw [msetE_of_has it h, List.map_map]
  apply List.map_congr_left
  intro e _
  by_cases he : e.1 = k
  · simp [he]
  · simp [he]

theorem nodup_msetE {m : EMap} (k : Nat) (it : CacheItem) (hn : NodupKeys m) :
    NodupKeys (msetE m k it) := by
  unfold NodupKeys
  cases h : hasKey m k
  · rw [msetE_of_not_has it h]
    rw [List.map_append]
    simp only [List.map_cons, List.map_nil]
    rw [List.nodup_append]
    refine ⟨hn, List.nodup_singleton k, ?_⟩
    intro x hx hk
    simp only [List.mem_singleton] at hk
    subst hk
    exact absurd (hasKey_iff_mem_keys.mpr hx) (by simp [h])
  · rw [keys_msetE_of_has it h]
    exact hn

theorem hasKey_append_single (m : EMap) (x : Nat) (it : CacheItem) (j : Nat) :
    hasKey (m ++ [(x, it)]) j = (hasKey m j || x == j) := by
  cases h : hasKey m j
  · rw [hasKey_false_iff] at h
    cases hx : (x == j)
    · simp only [Bool.or_false]
      rw [hasKey_false_iff]
      intro e hmem
      rcases List.mem_append.mp hmem with hl | hr
      · exact h e hl
      · simp only [List.mem_singleton] at hr
        subst hr
        simpa using hx
    · simp only [Bool.or_true]
      rw [hasKey_true_iff]
      exact ⟨it, by simp [List.mem_append, beq_iff_eq.mp hx]⟩
  · rcases hasKey_true_iff.mp h with ⟨it', hmem⟩
    simp only [Bool.true_or]
    exact hasKey_true_iff.mpr ⟨it', List.mem_append.mpr (Or.inl hmem)⟩

theorem mget_append_of_has {m : EMap} {k : Nat} (l : EMap)
    (h : hasKey m k = true) : mget (m ++ l) k = mget m k := by
  unfold mget
  rw [List.find?_append]
  rcases Option.isSome_iff_exists.mp (by rw [hasKey] at h; exact h) with ⟨e, he⟩
  rw [he]
  rfl

theorem mget_append_single_self {m : EMap} {k : Nat} (it : CacheItem)
    (h : hasKey m k = false) : mget (m ++ [(k, it)]) k = some it := by
  unfold mget
  rw [List.find?_append]
  have : m.find? (fun e => e.1 == k) = none := by
    rw [List.find?_eq_none]
    intro e hmem
    simpa using (hasKey_false_iff.mp h) e hmem
  rw [this]
  simp [List.find?]

theorem mget_map_overwrite (m : EMap) (k : Nat) (it : CacheItem)
    (h : hasKey m k = true) :
    mget (m.map (fun e => if e.1 == k then (k, it) else e)) k = some it := by
  induction m with
  | nil => simp [hasKey] at h
  | cons e rest ih =>
    obtain ⟨k', it''⟩ := e
    by_cases hk : k' = k
    · subst hk
      simp [mget_cons]
    · rw [hasKey_cons] at h
      have hrest : hasKey rest k = true := by simpa [hk] using h
      simp only [List.map_cons]
      rw [show (if ((k', it'') : Entry).1 == k then (k, it) else (k', it'')) =
        ((k', it'') : Entry) by simp [hk]]
      rw [mget_cons]
      rw [if_neg (by simp [hk])]
      exact ih hrest

theorem mget_msetE_self (m : EMap) (k : Nat) (it : CacheItem) :
    mget (msetE m k it) k = some it := by
  cases h : hasKey m k
  · rw [msetE_of_not_has it h]
    exact mget_append_single_self it h
  · rw [msetE_of_has it h]
    exact mget_map_overwrite m k it h

-- ## State-shape lemmas for the mutation primitives

theorem delete_snd (s : LRU) (k : Nat) :
    (s.delete k).2 = { s with cache := eraseKey s.cache k,
                              oldCache := eraseKey s.oldCache k,
                              size := if hasKey s.cache k then s.size - 1
                                      else s.size } := rfl

theorem deleteIfExpired_snd (s : LRU) (now : Int) (k : Nat) (it : CacheItem) :
    (s.deleteIfExpired now k it).2.1 =
      if expiredAt it now then (s.delete k).2 else s := by
  cases h : expiredAt it now <;> simp [LRU.deleteIfExpired, h]

theorem sweepAll_cons_snd (now : Int) (k : Nat) (it : CacheItem)
    (rest : List Entry) (s : LRU) :
    (sweepAll now ((k, it) :: rest) s).2.1 =
      (sweepAll now rest (s.deleteIfExpired now k it).2.1).2.1 := by
  rcases hde : s.deleteIfExpired now k it with ⟨d, s', ev⟩
  rcases hrec : sweepAll now rest s' with ⟨ys, s'', ev'⟩
  simp [sweepAll, hde, hrec]

theorem sweepSkip_cons_snd (now : Int) (k : Nat) (it : CacheItem)
    (rest : List Entry) (s : LRU) :
    (sweepSkip now ((k, it) :: rest) s).2.1 =
      if hasKey s.cache k then (sweepSkip now rest s).2.1
      else (sweepSkip now rest (s.deleteIfExpired now k it).2.1).2.1 := by
  cases hc : hasKey s.cache k
  · rcases hde : s.deleteIfExpired now k it with ⟨d, s', ev⟩
    rcases hrec : sweepSkip now rest s' with ⟨ys, s'', ev'⟩
    simp [sweepSkip, hc, hde, hrec]
  · simp [sweepSkip, hc]

theorem sweepAll_pres (now : Int) (P : LRU → Prop)
    (hP : ∀ s k, P s → P (s.delete k).2) :
    ∀ (l : List Entry) (s : LRU), P s → P (sweepAll now l s).2.1 := by
  intro l
  induction l with
  | nil => intro s hs; simpa [sweepAll] using hs
  | cons e rest ih =>
    intro s hs
    obtain ⟨k, it⟩ := e
    rw [sweepAll_cons_snd]
    apply ih
    rw [deleteIfExpired_snd]
    cases h : expiredAt it now
    · simpa using hs
    · simpa using hP s k hs

theorem sweepSkip_pres (now : Int) (P : LRU → Prop)
    (hP : ∀ s k, P s → P (s.delete k).2) :
    ∀ (l : List Entry) (s : LRU), P s → P (sweepSkip now l s).2.1 := by
  intro l
  induction l with
  | nil => intro s hs; simpa [sweepSkip] using hs
  | cons e rest ih =>
    intro s hs
    obtain ⟨k, it⟩ := e
    rw [sweepSkip_cons_snd]
    cases hc : hasKey s.cache k
    · simp only [Bool.false_eq_true, if_false]
      apply ih
      rw [deleteIfExpired_snd]
      cases h : expiredAt it now
      · simpa using hs
      · simpa using hP s k hs
    · simp only [if_true]
      exact ih s hs

theorem ascRaw_pres (now : Int) (P : LRU → Prop)
    (hP : ∀ s k, P s → P (s.delete k).2)
    (s : LRU) (hs : P s) : P (s.entriesAscendingRaw now).2.1 := by
  rcases h1 : sweepSkip now s.oldCache s with ⟨ys₁, s₁, ev₁⟩
  rcases h2 : sweepAll now s₁.cache s₁ with ⟨ys₂, s₂, ev₂⟩
  have hp1 : P s₁ := by
    have := sweepSkip_pres now P hP s.oldCache s hs
    rwa [h1] at this
  have hp2 : P s₂ := by
    have := sweepAll_pres now P hP s₁.cache s₁ hp1
    rwa [h2] at this
  simp [LRU.entriesAscendingRaw, h1, h2, hp2]

-- ## Preservation of the structural invariant

theorem WF_delete {s : LRU} (k : Nat) (h : WF s) : WF (s.delete k).2 := by
  rw [delete_snd]
  cases hc : hasKey s.cache k
  · rw [eraseKey_of_not_has hc]
    exact ⟨h.maxSize_pos, by simp [hc, h.size_eq], h.cache_lt, h.nodup_cache,
      nodup_eraseKey k h.nodup_old⟩
  · have hlen := length_eraseKey_succ h.nodup_cache hc
    have hsz := h.size_eq
    have hlt := h.cache_lt
    refine ⟨h.maxSize_pos, ?_, ?_, nodup_eraseKey k h.nodup_cache,
      nodup_eraseKey k h.nodup_old⟩
    · dsimp only
      simp only [hc, if_true]
      omega
    · dsimp only
      omega

theorem OldBnd_delete {s : LRU} (k : Nat) (h : OldBnd s) :
    OldBnd (s.delete k).2 := by
  rw [delete_snd]
  unfold OldBnd at *
  exact le_trans (length_eraseKey_le s.oldCache k) h

theorem WF_setInternal {s : LRU} {k : Nat} (it : CacheItem)
    (hc : hasKey s.cache k = false) (h : WF s) : WF (s.setInternal k it).1 := by
  have hlen := length_msetE_of_not_has it hc
  have hsz := h.size_eq
  have hlt := h.cache_lt
  have hms := h.maxSize_pos
  by_cases hrot : s.size + 1 ≥ (s.maxSize : Int)
  · have : (s.setInternal k it).1 =
      { s with size := 0, oldCache := msetE s.cache k it, cache := [] } := by
        simp [LRU.setInternal, hrot]
    rw [this]
    exact ⟨hms, by simp, by simpa using hms, by simp [NodupKeys],
      nodup_msetE k it h.nodup_cache⟩
  · have : (s.setInternal k it).1 =
      { s with cache := msetE s.cache k it, size := s.size + 1 } := by
        simp [LRU.setInternal, hrot]
    rw [this]
    refine ⟨hms, ?_, ?_, nodup_msetE k it h.nodup_cache, h.nodup_old⟩
    · simp only
      omega
    · simp only
      omega

theorem OldBnd_setInternal {s : LRU} {k : Nat} (it : CacheItem)
    (hc : hasKey s.cache k = false) (h : WF s) (hb : OldBnd s) :
    OldBnd (s.setInternal k it).1 := by
  have hlen := length_msetE_of_not_has it hc
  have hsz := h.size_eq
  have hlt := h.cache_lt
  unfold OldBnd at *
  by_cases hrot : s.size + 1 ≥ (s.maxSize : Int)
  · have : (s.setInternal k it).1 =
      { s with size := 0, oldCache := msetE s.cache k it, cache := [] } := by
        simp [LRU.setInternal, hrot]
    rw [this]
    simp only
    omega
  · have : (s.setInternal k it).1 =
      { s with cache := msetE s.cache k it, size := s.size + 1 } := by
        simp [LRU.setInternal, hrot]
    rw [this]
    simpa using hb

theorem hasKey_eq_false_of_mget_none {m : EMap} {k : Nat}
    (h : mget m k = none) : hasKey m k = false := by
  have := mget_isSome_eq m k
  rw [h] at this
  simpa using this.symm

theorem getItemValue_snd (s : LRU) (now : Int) (k : Nat) (it : CacheItem) :
    (s.getItemValue now k it).2.1 =
      if expiryTruthy it.expiry && expiredAt it now then (s.delete k).2
      else s := by
  cases ht : expiryTruthy it.expiry <;> cases he : expiredAt it now <;>
    simp [LRU.getItemValue, LRU.getOrDeleteIfExpired, LRU.deleteIfExpired, ht, he]

theorem deleteIfExpired_false_of_old {s : LRU} {now : Int} {k : Nat}
    {it : CacheItem} (hold : hasKey s.oldCache k = true)
    (h : (s.deleteIfExpired now k it).1 = false) :
    (s.deleteIfExpired now k it).2.1 = s ∧ expiredAt it now = false := by
  cases he : expiredAt it now
  · simp [LRU.deleteIfExpired, he]
  · exfalso
    have hfst : (s.deleteIfExpired now k it).1 = (s.delete k).1 := by
      simp [LRU.deleteIfExpired, he]
    rw [hfst] at h
    simp [LRU.delete, hold] at h

theorem deleteIfExpired_true_snd {s : LRU} {now : Int} {k : Nat}
    {it : CacheItem} (h : (s.deleteIfExpired now k it).1 = true) :
    (s.deleteIfExpired now k it).2.1 = (s.delete k).2 := by
  cases he : expiredAt it now
  · simp [LRU.deleteIfExpired, he] at h
  · simp [LRU.deleteIfExpired, he]

theorem WF_deleteIfExpired {s : LRU} {now : Int} {k : Nat} {it : CacheItem}
    (h : WF s) : WF (s.deleteIfExpired now k it).2.1 := by
  rw [deleteIfExpired_snd]
  cases he : expiredAt it now
  · simpa using h
  · simpa using WF_delete k h

theorem WF_getItemValue {s : LRU} {now : Int} {k : Nat} {it : CacheItem}
    (h : WF s) : WF (s.getItemValue now k it).2.1 := by
  rw [getItemValue_snd]
  cases hb : expiryTruthy it.expiry && expiredAt it now
  · simpa using h
  · simpa using WF_delete k h

theorem WF_moveToRecent {s : LRU} {k : Nat} (it : CacheItem)
    (hc : hasKey s.cache k = false) (h : WF s) : WF (s.moveToRecent k it).1 := by
  unfold LRU.moveToRecent
  exact WF_setInternal it hc
    ⟨h.maxSize_pos, h.size_eq, h.cache_lt, h.nodup_cache,
      nodup_eraseKey k h.nodup_old⟩

theorem WF_get {s : LRU} (k : Nat) (now : Int) (h : WF s) :
    WF (s.get k now).2.1 := by
  unfold LRU.get
  cases hmc : mget s.cache k with
  | some it =>
    simp only
    exact WF_getItemValue h
  | none =>
    cases hmo : mget s.oldCache k with
    | some it =>
      simp only
      rcases hde : s.deleteIfExpired now k it with ⟨d, s', ev⟩
      cases d
      · simp only [Bool.false_eq_true, if_false]
        have hs' : s' = s := by
          have h1 : (s.deleteIfExpired now k it).1 = false := by rw [hde]
          have := (deleteIfExpired_false_of_old (hasKey_of_mget_some hmo) h1).1
          rw [hde] at this
          exact this
        rw [hs']
        rcases hmv : s.moveToRecent k it with ⟨s'', ev'⟩
        simp only
        have := WF_moveToRecent it (hasKey_eq_false_of_mget_none hmc) h
        rwa [hmv] at this
      · simp only [if_true]
        have : WF (s.deleteIfExpired now k it).2.1 := WF_deleteIfExpired h
        rw [hde] at this
        exact this
    | none =>
      simp only
      exact h

theorem WF_set {s : LRU} (k v : Nat) (arg : TTLArg) (now : Int) (h : WF s) :
    WF (s.set k v arg now).1 := by
  unfold LRU.set
  cases hc : hasKey s.cache k
  · simp only [Bool.false_eq_true, if_false]
    exact WF_setInternal _ hc h
  · simp only [if_true]
    refine ⟨h.maxSize_pos, ?_, ?_, nodup_msetE k _ h.nodup_cache, h.nodup_old⟩
    · dsimp only
      rw [length_msetE_of_has _ hc]
      exact h.size_eq
    · dsimp only
      rw [length_msetE_of_has _ hc]
      exact h.cache_lt

theorem WF_has {s : LRU} (k : Nat) (now : Int) (h : WF s) :
    WF (s.has k now).2.1 := by
  unfold LRU.has
  cases hmc : mget s.cache k with
  | some it =>
    simp only
    rcases hde : s.deleteIfExpired now k it with ⟨d, s', ev⟩
    simp only
    have := @WF_deleteIfExpired s now k it h
    rwa [hde] at this
  | none =>
    cases hmo : mget s.oldCache k with
    | some it =>
      simp only
      rcases hde : s.deleteIfExpired now k it with ⟨d, s', ev⟩
      simp only
      have := @WF_deleteIfExpired s now k it h
      rwa [hde] at this
    | none =>
      simp only
      exact h

theorem WF_peek {s : LRU} (k : Nat) (now : Int) (h : WF s) :
    WF (s.peek k now).2.1 := by
  unfold LRU.peek
  cases hmc : mget s.cache k with
  | some it => exact WF_getItemValue h
  | none =>
    cases hmo : mget s.oldCache k with
    | some it => exact WF_getItemValue h
    | none => exact h

theorem WF_clear {s : LRU} (h : WF s) : WF s.clear :=
  ⟨h.maxSize_pos, by simp [LRU.clear], by simpa [LRU.clear] using h.maxSize_pos,
    by simp [LRU.clear, NodupKeys], by simp [LRU.clear, NodupKeys]⟩

-- ## Exact characterization of the enumeration passes

theorem hasKey_eraseKey_ne {m : EMap} {k j : Nat} (h : j ≠ k) :
    hasKey (eraseKey m k) j = hasKey m j := by
  cases hm : hasKey m j
  · rw [hasKey_false_iff] at hm ⊢
    intro e hmem
    exact hm e (List.mem_of_mem_filter hmem)
  · rcases hasKey_true_iff.mp hm with ⟨it, hmem⟩
    exact hasKey_true_iff.mpr ⟨it, List.mem_filter.mpr ⟨hmem, by simpa using h⟩⟩

theorem eraseKeys_cons (m : EMap) (k : Nat) (ks : List Nat) :
    eraseKeys m (k :: ks) = eraseKeys (eraseKey m k) ks := rfl

theorem allDelKeys_cons (now : Int) (k : Nat) (it : CacheItem)
    (rest : List Entry) :
    allDelKeys now ((k, it) :: rest) =
      if expiredAt it now then k :: allDelKeys now rest
      else allDelKeys now rest := by
  cases he : expiredAt it now <;> simp [allDelKeys, List.filter_cons, he]

theorem emitEvictions_cons (k : Nat) (it : CacheItem) (rest : List Entry) :
    emitEvictions ((k, it) :: rest) = (k, it.value) :: emitEvictions rest := by
  simp [emitEvictions]


theorem sweepAll_spec (now : Int) :
    ∀ (l : List Entry) (s : LRU),
      (l.map Prod.fst).Nodup → (∀ e ∈ l, hasKey s.cache e.1 = true) →
      (sweepAll now l s).1 = l.filter (fun e => !expiredAt e.2 now) ∧
      (sweepAll now l s).2.1.cache = eraseKeys s.cache (allDelKeys now l) ∧
      (sweepAll now l s).2.1.oldCache = eraseKeys s.oldCache (allDelKeys now l) ∧
      (sweepAll now l s).2.1.maxSize = s.maxSize ∧
      (sweepAll now l s).2.1.maxAge = s.maxAge ∧
      (sweepAll now l s).2.2 =
        emitEvictions (l.filter (fun e => expiredAt e.2 now)) := by
  intro l
  induction l with
  | nil =>
    intro s _ _
    simp [sweepAll, eraseKeys, allDelKeys, emitEvictions]
  | cons e rest ih =>
    intro s hl hsub
    obtain ⟨k, it⟩ := e
    have hck : hasKey s.cache k = true := hsub (k, it) (List.mem_cons_self _ _)
    simp only [List.map_cons, List.nodup_cons] at hl
    have hknotin := hl.1
    have hl' := hl.2
    have hne : ∀ e ∈ rest, e.1 ≠ k := by
      intro e hmem hk
      exact hknotin (hk ▸ List.mem_map.mpr ⟨e, hmem, rfl⟩)
    cases he : expiredAt it now
    · have hde : s.deleteIfExpired now k it = (false, s, []) := by
        simp [LRU.deleteIfExpired, he]
      rcases hrec : sweepAll now rest s with ⟨ys, s'', ev'⟩
      obtain ⟨ihy, ihc, iho, ihm, iha, ihe⟩ :=
        ih s hl' (fun e hmem => hsub e (List.mem_cons_of_mem _ hmem))
      rw [hrec] at ihy ihc iho ihm iha ihe
      have hstep : sweepAll now ((k, it) :: rest) s =
          ((k, it) :: ys, s'', ev') := by
        simp [sweepAll, hde, hrec]
      rw [hstep]
      refine ⟨?_, ?_, ?_, ?_, ?_, ?_⟩
      · simp only [List.filter_cons, he]
        simpa using ihy
      · rw [allDelKeys_cons, if_neg (by simp [he])]
        exact ihc
      · rw [allDelKeys_cons, if_neg (by simp [he])]
        exact iho
      · exact ihm
      · exact iha
      · rw [show List.filter (fun e => expiredAt e.2 now) ((k, it) :: rest) =
          List.filter (fun e => expiredAt e.2 now) rest by
            simp [List.filter_cons, he]]
        exact ihe
    · have hde : s.deleteIfExpired now k it =
          (true, (s.delete k).2, [(k, it.value)]) := by
        simp [LRU.deleteIfExpired, he, LRU.delete, hck]
      have hsub' : ∀ e ∈ rest, hasKey (s.delete k).2.cache e.1 = true := by
        intro e hmem
        rw [delete_snd]
        dsimp only
        rw [hasKey_eraseKey_ne (hne e hmem)]
        exact hsub e (List.mem_cons_of_mem _ hmem)
      rcases hrec : sweepAll now rest (s.delete k).2 with ⟨ys, s'', ev'⟩
      obtain ⟨ihy, ihc, iho, ihm, iha, ihe⟩ := ih (s.delete k).2 hl' hsub'
      rw [hrec] at ihy ihc iho ihm iha ihe
      have hcd : (s.delete k).2.cache = eraseKey s.cache k := by rw [delete_snd]
      have hod : (s.delete k).2.oldCache = eraseKey s.oldCache k := by
        rw [delete_snd]
      have hmd : (s.delete k).2.maxSize = s.maxSize := by rw [delete_snd]
      have had : (s.delete k).2.maxAge = s.maxAge := by rw [delete_snd]
      have hstep : sweepAll now ((k, it) :: rest) s =
          (ys, s'', (k, it.value) :: ev') := by
        simp [sweepAll, hde, hrec]
      rw [hstep]
      refine ⟨?_, ?_, ?_, ?_, ?_, ?_⟩
      · simp only [List.filter_cons, he]
        simpa using ihy
      · rw [allDelKeys_cons, if_pos he, eraseKeys_cons, ← hcd]
        exact ihc
      · rw [allDelKeys_cons, if_pos he, eraseKeys_cons, ← hod]
        exact iho
      · rw [ihm, hmd]
      · rw [iha, had]
      · rw [show List.filter (fun e => expiredAt e.2 now) ((k, it) :: rest) =
          (k, it) :: List.filter (fun e => expiredAt e.2 now) rest by
            simp [List.filter_cons, he]]
        rw [emitEvictions_cons]
        have ihe' : ev' =
            emitEvictions (List.filter (fun e => expiredAt e.2 now) rest) := ihe
        rw [ihe']

theorem skipDelKeys_cons (now : Int) (C : EMap) (k : Nat) (it : CacheItem)
    (rest : List Entry) :
    skipDelKeys now C ((k, it) :: rest) =
      if !hasKey C k && expiredAt it now then k :: skipDelKeys now C rest
      else skipDelKeys now C rest := by
  cases hb : (!hasKey C k && expiredAt it now) <;>
    simp [skipDelKeys, List.filter_cons, hb]

theorem sweepSkip_spec (now : Int) (C : EMap) :
    ∀ (l : List Entry) (s : LRU), s.cache = C →
      (l.map Prod.fst).Nodup → (∀ e ∈ l, hasKey s.oldCache e.1 = true) →
      (sweepSkip now l s).1 =
          l.filter (fun e => !hasKey C e.1 && !expiredAt e.2 now) ∧
      (sweepSkip now l s).2.1.cache = s.cache ∧
      (sweepSkip now l s).2.1.oldCache =
        eraseKeys s.oldCache (skipDelKeys now C l) ∧
      (sweepSkip now l s).2.1.size = s.size ∧
      (sweepSkip now l s).2.1.maxSize = s.maxSize ∧
      (sweepSkip now l s).2.1.maxAge = s.maxAge ∧
      (sweepSkip now l s).2.2 =
        emitEvictions
          (l.filter (fun e => !hasKey C e.1 && expiredAt e.2 now)) := by
  intro l
  induction l with
  | nil =>
    intro s _ _ _
    simp [sweepSkip, eraseKeys, skipDelKeys, emitEvictions]
  | cons e rest ih =>
    intro s hs hl hsub
    obtain ⟨k, it⟩ := e
    have hok : hasKey s.oldCache k = true := hsub (k, it) (List.mem_cons_self _ _)
    simp only [List.map_cons, List.nodup_cons] at hl
    have hknotin := hl.1
    have hl' := hl.2
    have hne : ∀ e ∈ rest, e.1 ≠ k := by
      intro e hmem hk
      exact hknotin (hk ▸ List.mem_map.mpr ⟨e, hmem, rfl⟩)
    cases hc : hasKey C k
    · -- not shadowed by the recent generation
      have hck : hasKey s.cache k = false := by rw [hs]; exact hc
      cases he : expiredAt it now
      · have hde : s.deleteIfExpired now k it = (false, s, []) := by
          simp [LRU.deleteIfExpired, he]
        rcases hrec : sweepSkip now rest s with ⟨ys, s'', ev'⟩
        obtain ⟨ihy, ihc, iho, ihsz, ihm, iha, ihe⟩ :=
          ih s hs hl' (fun e hmem => hsub e (List.mem_cons_of_mem _ hmem))
        rw [hrec] at ihy ihc iho ihsz ihm iha ihe
        have hstep : sweepSkip now ((k, it) :: rest) s =
            ((k, it) :: ys, s'', ev') := by
          simp [sweepSkip, hck, hde, hrec]
        rw [hstep]
        refine ⟨?_, ihc, ?_, ihsz, ihm, iha, ?_⟩
        · rw [show List.filter
              (fun e => !hasKey C e.1 && !expiredAt e.2 now) ((k, it) :: rest) =
            (k, it) :: List.filter
              (fun e => !hasKey C e.1 && !expiredAt e.2 now) rest by
              simp [List.filter_cons, hc, he]]
          have ihy' : ys = List.filter
              (fun e => !hasKey C e.1 && !expiredAt e.2 now) rest := ihy
          rw [ihy']
        · rw [skipDelKeys_cons, if_neg (by simp [hc, he])]
          exact iho
        · rw [show List.filter
              (fun e => !hasKey C e.1 && expiredAt e.2 now) ((k, it) :: rest) =
            List.filter
              (fun e => !hasKey C e.1 && expiredAt e.2 now) rest by
              simp [List.filter_cons, hc, he]]
          exact ihe
      · have hde : s.deleteIfExpired now k it =
            (true, (s.delete k).2, [(k, it.value)]) := by
          simp [LRU.deleteIfExpired, he, LRU.delete, hok]
        have hcd : (s.delete k).2.cache = s.cache := by
          rw [delete_snd]
          dsimp only
          rw [eraseKey_of_not_has hck]
        have hod : (s.delete k).2.oldCache = eraseKey s.oldCache k := by
          rw [delete_snd]
        have hsd : (s.delete k).2.size = s.size := by
          rw [delete_snd]
          dsimp only
          rw [hck]
          simp
        have hmd : (s.delete k).2.maxSize = s.maxSize := by rw [delete_snd]
        have had : (s.delete k).2.maxAge = s.maxAge := by rw [delete_snd]
        have hsub' : ∀ e ∈ rest, hasKey (s.delete k).2.oldCache e.1 = true := by
          intro e hmem
          rw [hod, hasKey_eraseKey_ne (hne e hmem)]
          exact hsub e (List.mem_cons_of_mem _ hmem)
        rcases hrec : sweepSkip now rest (s.delete k).2 with ⟨ys, s'', ev'⟩
        obtain ⟨ihy, ihc, iho, ihsz, ihm, iha, ihe⟩ :=
          ih (s.delete k).2 (by rw [hcd, hs]) hl' hsub'
        rw [hrec] at ihy ihc iho ihsz ihm iha ihe
        have hstep : sweepSkip now ((k, it) :: rest) s =
            (ys, s'', (k, it.value) :: ev') := by
          simp [sweepSkip, hck, hde, hrec]
        rw [hstep]
        refine ⟨?_, ?_, ?_, ?_, ?_, ?_, ?_⟩
        · rw [show List.filter
              (fun e => !hasKey C e.1 && !expiredAt e.2 now) ((k, it) :: rest) =
            List.filter
              (fun e => !hasKey C e.1 && !expiredAt e.2 now) rest by
              simp [List.filter_cons, hc, he]]
          exact ihy
        · rw [ihc, hcd]
        · rw [skipDelKeys_cons, if_pos (by simp [hc, he]), eraseKeys_cons,
            ← hod]
          exact iho
        · rw [ihsz, hsd]
        · rw [ihm, hmd]
        · rw [iha, had]
        · rw [show List.filter
              (fun e => !hasKey C e.1 && expiredAt e.2 now) ((k, it) :: rest) =
            (k, it) :: List.filter
              (fun e => !hasKey C e.1 && expiredAt e.2 now) rest by
              simp [List.filter_cons, hc, he]]
          rw [emitEvictions_cons]
          have ihe' : ev' = emitEvictions (List.filter
              (fun e => !hasKey C e.1 && expiredAt e.2 now) rest) := ihe
          rw [ihe']
    · -- shadowed: skipped entirely
      have hck : hasKey s.cache k = true := by rw [hs]; exact hc
      have hstep : sweepSkip now ((k, it) :: rest) s = sweepSkip now rest s := by
        simp [sweepSkip, hck]
      rw [hstep]
      obtain ⟨ihy, ihc, iho, ihsz, ihm, iha, ihe⟩ :=
        ih s hs hl' (fun e hmem => hsub e (List.mem_cons_of_mem _ hmem))
      refine ⟨?_, ihc, ?_, ihsz, ihm, iha, ?_⟩
      · rw [show List.filter
            (fun e => !hasKey C e.1 && !expiredAt e.2 now) ((k, it) :: rest) =
          List.filter
            (fun e => !hasKey C e.1 && !expiredAt e.2 now) rest by
            simp [List.filter_cons, hc]]
        exact ihy
      · rw [skipDelKeys_cons, if_neg (by simp [hc])]
        exact iho
      · rw [show List.filter
            (fun e => !hasKey C e.1 && expiredAt e.2 now) ((k, it) :: rest) =
          List.filter
            (fun e => !hasKey C e.1 && expiredAt e.2 now) rest by
            simp [List.filter_cons, hc]]
        exact ihe

theorem hasKey_self {m : EMap} {e : Entry} (h : e ∈ m) : hasKey m e.1 = true :=
  hasKey_true_iff.mpr ⟨e.2, by simpa using h⟩

theorem ascRaw_spec (s : LRU) (now : Int)
    (h1 : NodupKeys s.cache) (h2 : NodupKeys s.oldCache) :
    (s.entriesAscendingRaw now).1 = ascPure s now ∧
    (s.entriesAscendingRaw now).2.1.cache =
      eraseKeys s.cache (allDelKeys now s.cache) ∧
    (s.entriesAscendingRaw now).2.1.oldCache =
      eraseKeys (eraseKeys s.oldCache (skipDelKeys now s.cache s.oldCache))
        (allDelKeys now s.cache) ∧
    (s.entriesAscendingRaw now).2.1.maxSize = s.maxSize ∧
    (s.entriesAscendingRaw now).2.1.maxAge = s.maxAge ∧
    (s.entriesAscendingRaw now).2.2 =
      emitEvictions (s.oldCache.filter
        (fun e => !hasKey s.cache e.1 && expiredAt e.2 now)) ++
        emitEvictions (s.cache.filter (fun e => expiredAt e.2 now)) := by
  rcases hp1 : sweepSkip now s.oldCache s with ⟨ys₁, s₁, ev₁⟩
  obtain ⟨p1y, p1c, p1o, p1sz, p1m, p1a, p1e⟩ :=
    sweepSkip_spec now s.cache s.oldCache s rfl h2
      (fun e hmem => hasKey_self hmem)
  rw [hp1] at p1y p1c p1o p1sz p1m p1a p1e
  have hs1c : s₁.cache = s.cache := p1c
  rcases hp2 : sweepAll now s₁.cache s₁ with ⟨ys₂, s₂, ev₂⟩
  obtain ⟨p2y, p2c, p2o, p2m, p2a, p2e⟩ :=
    sweepAll_spec now s₁.cache s₁ (by rw [hs1c]; exact h1)
      (fun e hmem => hasKey_self hmem)
  rw [hp2] at p2y p2c p2o p2m p2a p2e
  have hasc : s.entriesAscendingRaw now = (ys₁ ++ ys₂, s₂, ev₁ ++ ev₂) := by
    simp [LRU.entriesAscendingRaw, hp1, hp2]
  rw [hasc]
  refine ⟨?_, ?_, ?_, ?_, ?_, ?_⟩
  · show ys₁ ++ ys₂ = ascPure s now
    unfold ascPure
    have hy1 : ys₁ = s.oldCache.filter
        (fun e => !hasKey s.cache e.1 && !expiredAt e.2 now) := p1y
    have hy2 : ys₂ = s₁.cache.filter (fun e => !expiredAt e.2 now) := p2y
    rw [hy1, hy2, hs1c]
  · show s₂.cache = _
    rw [p2c, hs1c]
  · show s₂.oldCache = _
    rw [p2o, hs1c]
    have : s₁.oldCache = eraseKeys s.oldCache
        (skipDelKeys now s.cache s.oldCache) := p1o
    rw [this]
  · show s₂.maxSize = s.maxSize
    rw [p2m, p1m]
  · show s₂.maxAge = s.maxAge
    rw [p2a, p1a]
  · show ev₁ ++ ev₂ = _
    have p1e' : ev₁ = emitEvictions (List.filter
        (fun e => !hasKey s.cache e.1 && expiredAt e.2 now) s.oldCache) := p1e
    have p2e' : ev₂ = emitEvictions
        (List.filter (fun e => expiredAt e.2 now) s₁.cache) := p2e
    rw [p1e', p2e', hs1c]

theorem ascPure_live (s : LRU) (now : Int) :
    ∀ e ∈ ascPure s now, expiredAt e.2 now = false := by
  intro e hmem
  rcases List.mem_append.mp hmem with h | h
  · have := List.of_mem_filter h
    simp only [Bool.and_eq_true, Bool.not_eq_true'] at this
    exact this.2
  · have := List.of_mem_filter h
    simpa using this

theorem nodup_ascPure {s : LRU} {now : Int} (h1 : NodupKeys s.cache)
    (h2 : NodupKeys s.oldCache) : NodupKeys (ascPure s now) := by
  unfold NodupKeys ascPure
  rw [List.map_append, List.nodup_append]
  refine ⟨?_, ?_, ?_⟩
  · exact ((List.filter_sublist _).map Prod.fst).nodup h2
  · exact ((List.filter_sublist _).map Prod.fst).nodup h1
  · intro x hx1 hx2
    rcases List.mem_map.mp hx1 with ⟨e, hmem, hk⟩
    have hno := List.of_mem_filter hmem
    simp only [Bool.and_eq_true, Bool.not_eq_true'] at hno
    rcases List.mem_map.mp hx2 with ⟨e', hmem', hk'⟩
    have : hasKey s.cache x = true := by
      rw [← hk']
      exact hasKey_self (List.mem_of_mem_filter hmem')
    rw [← hk] at this
    rw [this] at hno
    exact Bool.noConfusion hno.1

theorem WF_resize {s : LRU} (n : Nat) (now : Int) (h : WF s) :
    WF (s.resize n now).1 := by
  unfold LRU.resize
  by_cases hn : n = 0
  · simp only [hn, if_pos rfl]
    exact h
  · rw [if_neg hn]
    rcases hasc : s.entriesAscendingRaw now with ⟨items, s₁, ev⟩
    simp only [hasc]
    obtain ⟨py, _, _, pm, pa, _⟩ := ascRaw_spec s now h.nodup_cache h.nodup_old
    rw [hasc] at py pm pa
    have hitems : items = ascPure s now := py
    have hnd : NodupKeys items := by
      rw [hitems]
      exact nodup_ascPure h.nodup_cache h.nodup_old
    have hn1 : 1 ≤ n := Nat.one_le_iff_ne_zero.mpr hn
    by_cases hrc : ((items.length : Int) - (n : Int)) < 0
    · rw [if_pos hrc]
      refine ⟨hn1, rfl, ?_, hnd, by simp [NodupKeys]⟩
      dsimp only
      omega
    · rw [if_neg hrc]
      refine ⟨hn1, rfl, ?_, by simp [NodupKeys], ?_⟩
      · dsimp only
        simp only [List.length_nil]
        omega
      · dsimp only
        unfold NodupKeys
        rw [List.map_drop]
        exact List.Nodup.sublist (List.drop_sublist _ _) hnd

theorem OldBnd_resize {s : LRU} (n : Nat) (now : Int) (h : WF s)
    (hb : OldBnd s) : OldBnd (s.resize n now).1 := by
  unfold LRU.resize
  by_cases hn : n = 0
  · simp only [hn, if_pos rfl]
    exact hb
  · rw [if_neg hn]
    rcases hasc : s.entriesAscendingRaw now with ⟨items, s₁, ev⟩
    simp only [hasc]
    by_cases hrc : ((items.length : Int) - (n : Int)) < 0
    · rw [if_pos hrc]
      unfold OldBnd
      simp
    · rw [if_neg hrc]
      unfold OldBnd
      dsimp only
      rw [List.length_drop]
      omega

theorem WF_ascRawState {s : LRU} (now : Int) (h : WF s) :
    WF (s.entriesAscendingRaw now).2.1 :=
  ascRaw_pres now WF (fun _ k hs => WF_delete k hs) s h

theorem WF_evict {s : LRU} (c : JSNum) (now : Int) (h : WF s) :
    WF (s.evict c now).1 := by
  unfold LRU.evict
  by_cases hg : (!c.truthy || c.jle 0) = true
  · rw [if_pos hg]
    exact h
  · rw [if_neg hg]
    rcases hasc : s.entriesAscendingRaw now with ⟨items, s₁, ev⟩
    simp only [hasc]
    obtain ⟨py, _, _, pm, pa, _⟩ := ascRaw_spec s now h.nodup_cache h.nodup_old
    rw [hasc] at py pm pa
    have hitems : items = ascPure s now := py
    have hms : s₁.maxSize = s.maxSize := pm
    have hnd : NodupKeys items := by
      rw [hitems]
      exact nodup_ascPure h.nodup_cache h.nodup_old
    have hWFs1 : WF s₁ := by
      have := WF_ascRawState now h
      rw [hasc] at this
      exact this
    by_cases hec : c.minTrunc (max ((items.length : Int) - 1) 0) ≤ 0
    · rw [if_pos hec]
      exact hWFs1
    · rw [if_neg hec]
      refine ⟨?_, rfl, ?_, by simp [NodupKeys], ?_⟩
      · show 1 ≤ s₁.maxSize
        rw [hms]
        exact h.maxSize_pos
      · dsimp only
        simp only [List.length_nil]
        rw [hms]
        have := h.maxSize_pos
        omega
      · dsimp only
        unfold NodupKeys
        rw [List.map_drop]
        exact List.Nodup.sublist (List.drop_sublist _ _) hnd

theorem descState_pres (now : Int) (P : LRU → Prop)
    (hP : ∀ s k, P s → P (s.delete k).2) (s : LRU) (hs : P s) :
    P (s.entriesDescending now).2.1 := by
  rcases h1 : sweepAll now s.cache.reverse s with ⟨ys₁, s₁, ev₁⟩
  rcases h2 : sweepSkip now s₁.oldCache.reverse s₁ with ⟨ys₂, s₂, ev₂⟩
  have hp1 : P s₁ := by
    have := sweepAll_pres now P hP s.cache.reverse s hs
    rwa [h1] at this
  have hp2 : P s₂ := by
    have := sweepSkip_pres now P hP s₁.oldCache.reverse s₁ hp1
    rwa [h2] at this
  simp [LRU.entriesDescending, h1, h2, hp2]

theorem plainState_pres (now : Int) (P : LRU → Prop)
    (hP : ∀ s k, P s → P (s.delete k).2) (s : LRU) (hs : P s) :
    P (s.iterPlain now).2.1 := by
  rcases h1 : sweepAll now s.cache s with ⟨ys₁, s₁, ev₁⟩
  rcases h2 : sweepSkip now s₁.oldCache s₁ with ⟨ys₂, s₂, ev₂⟩
  have hp1 : P s₁ := by
    have := sweepAll_pres now P hP s.cache s hs
    rwa [h1] at this
  have hp2 : P s₂ := by
    have := sweepSkip_pres now P hP s₁.oldCache s₁ hp1
    rwa [h2] at this
  simp [LRU.iterPlain, h1, h2, hp2]

theorem OldBnd_deleteIfExpired {s : LRU} {now : Int} {k : Nat}
    {it : CacheItem} (hb : OldBnd s) : OldBnd (s.deleteIfExpired now k it).2.1 := by
  rw [deleteIfExpired_snd]
  cases he : expiredAt it now
  · simpa using hb
  · simpa using OldBnd_delete k hb

theorem OldBnd_getItemValue {s : LRU} {now : Int} {k : Nat} {it : CacheItem}
    (hb : OldBnd s) : OldBnd (s.getItemValue now k it).2.1 := by
  rw [getItemValue_snd]
  cases hbt : expiryTruthy it.expiry && expiredAt it now
  · simpa using hb
  · simpa using OldBnd_delete k hb

theorem OldBnd_moveToRecent {s : LRU} {k : Nat} (it : CacheItem)
    (hc : hasKey s.cache k = false) (h : WF s) (hb : OldBnd s) :
    OldBnd (s.moveToRecent k it).1 := by
  unfold LRU.moveToRecent
  refine OldBnd_setInternal it hc ?_ ?_
  · exact ⟨h.maxSize_pos, h.size_eq, h.cache_lt, h.nodup_cache,
      nodup_eraseKey k h.nodup_old⟩
  · unfold OldBnd at *
    exact le_trans (length_eraseKey_le _ _) hb

theorem OldBnd_get {s : LRU} (k : Nat) (now : Int) (h : WF s) (hb : OldBnd s) :
    OldBnd (s.get k now).2.1 := by
  unfold LRU.get
  cases hmc : mget s.cache k with
  | some it =>
    simp only
    exact OldBnd_getItemValue hb
  | none =>
    cases hmo : mget s.oldCache k with
    | some it =>
      simp only
      rcases hde : s.deleteIfExpired now k it with ⟨d, s', ev⟩
      cases d
      · simp only [Bool.false_eq_true, if_false]
        have hs' : s' = s := by
          have h1 : (s.deleteIfExpired now k it).1 = false := by rw [hde]
          have := (deleteIfExpired_false_of_old (hasKey_of_mget_some hmo) h1).1
          rw [hde] at this
          exact this
        rw [hs']
        rcases hmv : s.moveToRecent k it with ⟨s'', ev'⟩
        simp only
        have := OldBnd_moveToRecent it (hasKey_eq_false_of_mget_none hmc) h hb
        rwa [hmv] at this
      · simp only [if_true]
        have : OldBnd (s.deleteIfExpired now k it).2.1 := OldBnd_deleteIfExpired hb
        rw [hde] at this
        exact this
    | none =>
      simp only
      exact hb

theorem OldBnd_set {s : LRU} (k v : Nat) (arg : TTLArg) (now : Int)
    (h : WF s) (hb : OldBnd s) : OldBnd (s.set k v arg now).1 := by
  unfold LRU.set
  cases hc : hasKey s.cache k
  · simp only [Bool.false_eq_true, if_false]
    exact OldBnd_setInternal _ hc h hb
  · simp only [if_true]
    exact hb

theorem OldBnd_has {s : LRU} (k : Nat) (now : Int) (hb : OldBnd s) :
    OldBnd (s.has k now).2.1 := by
  unfold LRU.has
  cases hmc : mget s.cache k with
  | some it =>
    simp only
    rcases hde : s.deleteIfExpired now k it with ⟨d, s', ev⟩
    simp only
    have := @OldBnd_deleteIfExpired s now k it hb
    rwa [hde] at this
  | none =>
    cases hmo : mget s.oldCache k with
    | some it =>
      simp only
      rcases hde : s.deleteIfExpired now k it with ⟨d, s', ev⟩
      simp only
      have := @OldBnd_deleteIfExpired s now k it hb
      rwa [hde] at this
    | none =>
      simp only
      exact hb

theorem OldBnd_peek {s : LRU} (k : Nat) (now : Int) (hb : OldBnd s) :
    OldBnd (s.peek k now).2.1 := by
  unfold LRU.peek
  cases hmc : mget s.cache k with
  | some it => exact OldBnd_getItemValue hb
  | none =>
    cases hmo : mget s.oldCache k with
    | some it => exact OldBnd_getItemValue hb
    | none => exact hb

theorem OldBnd_clear (s : LRU) : OldBnd s.clear := by
  unfold OldBnd LRU.clear
  simp

-- ## Trace-level preservation

theorem stepEv_get_fst (s : LRU) (k : Nat) (now : Int) :
    (stepEv s (.get k now)).1 = (s.get k now).2.1 := by
  rcases h : s.get k now with ⟨r, s', ev⟩
  simp [stepEv, h]

theorem stepEv_has_fst (s : LRU) (k : Nat) (now : Int) :
    (stepEv s (.has k now)).1 = (s.has k now).2.1 := by
  rcases h : s.has k now with ⟨r, s', ev⟩
  simp [stepEv, h]

theorem stepEv_peek_fst (s : LRU) (k : Nat) (now : Int) :
    (stepEv s (.peek k now)).1 = (s.peek k now).2.1 := by
  rcases h : s.peek k now with ⟨r, s', ev⟩
  simp [stepEv, h]

theorem stepEv_iterA_fst (s : LRU) (now : Int) :
    (stepEv s (.iterA now)).1 = (s.entriesAscendingRaw now).2.1 := by
  rcases h : s.entriesAscendingRaw now with ⟨ys, s', ev⟩
  simp [stepEv, LRU.entriesAscending, h]

theorem stepEv_iterD_fst (s : LRU) (now : Int) :
    (stepEv s (.iterD now)).1 = (s.entriesDescending now).2.1 := by
  rcases h : s.entriesDescending now with ⟨ys, s', ev⟩
  simp [stepEv, h]

theorem stepEv_iterP_fst (s : LRU) (now : Int) :
    (stepEv s (.iterP now)).1 = (s.iterPlain now).2.1 := by
  rcases h : s.iterPlain now with ⟨ys, s', ev⟩
  simp [stepEv, h]

theorem WF_step (s : LRU) (op : Op) (h : WF s) : WF (stepEv s op).1 := by
  cases op with
  | get k now =>
    rw [stepEv_get_fst]
    exact WF_get k now h
  | set k v ttl now => exact WF_set k v ttl now h
  | has k now =>
    rw [stepEv_has_fst]
    exact WF_has k now h
  | peek k now =>
    rw [stepEv_peek_fst]
    exact WF_peek k now h
  | del k => exact WF_delete k h
  | clear => exact WF_clear h
  | resize n now => exact WF_resize n now h
  | evict c now => exact WF_evict c now h
  | iterA now =>
    rw [stepEv_iterA_fst]
    exact WF_ascRawState now h
  | iterD now =>
    rw [stepEv_iterD_fst]
    exact descState_pres now WF (fun _ k hs => WF_delete k hs) s h
  | iterP now =>
    rw [stepEv_iterP_fst]
    exact plainState_pres now WF (fun _ k hs => WF_delete k hs) s h

theorem execTrace_cons (s : LRU) (op : Op) (t : List Op) :
    execTrace s (op :: t) = execTrace (stepEv s op).1 t := by
  simp [execTrace]

theorem WF_execTrace (t : List Op) : ∀ s : LRU, WF s → WF (execTrace s t) := by
  induction t with
  | nil =>
    intro s h
    exact h
  | cons op rest ih =>
    intro s h
    rw [execTrace_cons]
    exact ih _ (WF_step s op h)

theorem InvE_step (s : LRU) (op : Op) (hop : isEvict op = false)
    (h : WF s ∧ OldBnd s) : WF (stepEv s op).1 ∧ OldBnd (stepEv s op).1 := by
  obtain ⟨hw, hb⟩ := h
  refine ⟨WF_step s op hw, ?_⟩
  cases op with
  | get k now =>
    rw [stepEv_get_fst]
    exact OldBnd_get k now hw hb
  | set k v ttl now => exact OldBnd_set k v ttl now hw hb
  | has k now =>
    rw [stepEv_has_fst]
    exact OldBnd_has k now hb
  | peek k now =>
    rw [stepEv_peek_fst]
    exact OldBnd_peek k now hb
  | del k => exact OldBnd_delete k hb
  | clear => exact OldBnd_clear s
  | resize n now => exact OldBnd_resize n now hw hb
  | evict c now => exact absurd hop (by simp [isEvict])
  | iterA now =>
    rw [stepEv_iterA_fst]
    exact (ascRaw_pres now (fun u => WF u ∧ OldBnd u)
      (fun u k hu => ⟨WF_delete k hu.1, OldBnd_delete k hu.2⟩) s ⟨hw, hb⟩).2
  | iterD now =>
    rw [stepEv_iterD_fst]
    exact (descState_pres now (fun u => WF u ∧ OldBnd u)
      (fun u k hu => ⟨WF_delete k hu.1, OldBnd_delete k hu.2⟩) s ⟨hw, hb⟩).2
  | iterP now =>
    rw [stepEv_iterP_fst]
    exact (plainState_pres now (fun u => WF u ∧ OldBnd u)
      (fun u k hu => ⟨WF_delete k hu.1, OldBnd_delete k hu.2⟩) s ⟨hw, hb⟩).2

theorem InvE_execTrace (t : List Op) :
    ∀ s : LRU, (∀ op ∈ t, isEvict op = false) → WF s ∧ OldBnd s →
      WF (execTrace s t) ∧ OldBnd (execTrace s t) := by
  induction t with
  | nil =>
    intro s _ h
    exact h
  | cons op rest ih =>
    intro s hev h
    rw [execTrace_cons]
    exact ih _ (fun op' hmem => hev op' (List.mem_cons_of_mem _ hmem))
      (InvE_step s op (hev op (List.mem_cons_self _ _)) h)

-- ## Micro-lemmas for the duality and idempotence arguments

theorem hasKey_filter_le {m : EMap} {p : Entry → Bool} {x : Nat}
    (h : hasKey (m.filter p) x = true) : hasKey m x = true := by
  rcases hasKey_true_iff.mp h with ⟨it, hmem⟩
  exact hasKey_true_iff.mpr ⟨it, List.mem_of_mem_filter hmem⟩

theorem nodupKeys_inj {m : EMap} (hn : NodupKeys m) {x : Nat}
    {a b : CacheItem} (ha : (x, a) ∈ m) (hb : (x, b) ∈ m) : a = b := by
  induction m with
  | nil => simp at ha
  | cons e rest ih =>
    obtain ⟨k, it⟩ := e
    have hn2 := List.nodup_cons.mp hn
    rcases List.mem_cons.mp ha with hah | hat
    · rcases List.mem_cons.mp hb with hbh | hbt
      · rw [(Prod.mk.injEq _ _ _ _).mp hah |>.2,
          (Prod.mk.injEq _ _ _ _).mp hbh |>.2]
      · exfalso
        have hxk : x = k := ((Prod.mk.injEq _ _ _ _).mp hah).1
        exact hn2.1 (hxk ▸ List.mem_map.mpr ⟨(x, b), hbt, rfl⟩)
    · rcases List.mem_cons.mp hb with hbh | hbt
      · exfalso
        have hxk : x = k := ((Prod.mk.injEq _ _ _ _).mp hbh).1
        exact hn2.1 (hxk ▸ List.mem_map.mpr ⟨(x, a), hat, rfl⟩)
      · exact ih hn2.2 hat hbt

theorem mem_allDelKeys {now : Int} {l : List Entry} {x : Nat} :
    x ∈ allDelKeys now l ↔ ∃ it, (x, it) ∈ l ∧ expiredAt it now = true := by
  unfold allDelKeys
  constructor
  · intro h
    rcases List.mem_map.mp h with ⟨e, hmem, hk⟩
    have hf := List.mem_filter.mp hmem
    exact ⟨e.2, by simpa [← hk] using hf.1, hf.2⟩
  · rintro ⟨it, hmem, hexp⟩
    exact List.mem_map.mpr ⟨(x, it), List.mem_filter.mpr ⟨hmem, hexp⟩, rfl⟩

theorem eraseKeys_eq_filter (ks : List Nat) :
    ∀ m : EMap, eraseKeys m ks = m.filter (fun e => !ks.contains e.1) := by
  induction ks with
  | nil =>
    intro m
    rw [show eraseKeys m [] = m from rfl]
    symm
    apply List.filter_eq_self.mpr
    intro e _
    simp
  | cons k ks ih =>
    intro m
    rw [eraseKeys_cons, ih (eraseKey m k)]
    unfold eraseKey
    rw [List.filter_filter]
    apply List.filter_congr
    intro e _
    show (!ks.contains e.1 && (e.1 != k)) = !((k :: ks).contains e.1)
    by_cases h1 : e.1 = k <;> by_cases h2 : e.1 ∈ ks <;>
      simp [List.contains_cons, h1, h2]

theorem contains_true_iff {ks : List Nat} {x : Nat} :
    ks.contains x = true ↔ x ∈ ks := by
  simp

theorem contains_false_iff {ks : List Nat} {x : Nat} :
    ks.contains x = false ↔ x ∉ ks := by
  rw [← Bool.not_eq_true, contains_true_iff]

theorem descAsc_duality (s : LRU) (now : Int)
    (h1 : NodupKeys s.cache) (h2 : NodupKeys s.oldCache) :
    (s.entriesDescending now).1 = ((s.entriesAscending now).1).reverse := by
  rcases hp1 : sweepAll now s.cache.reverse s with ⟨ys₁, t₁, ev₁⟩
  obtain ⟨p1y, p1c, p1o, p1m, p1a, p1e⟩ :=
    sweepAll_spec now s.cache.reverse s
      (by rw [List.map_reverse]; exact List.nodup_reverse.mpr h1)
      (fun e hmem => hasKey_self (List.mem_reverse.mp hmem))
  rw [hp1] at p1y p1c p1o p1m p1a p1e
  rcases hp2 : sweepSkip now t₁.oldCache.reverse t₁ with ⟨ys₂, t₂, ev₂⟩
  have ht1c : t₁.cache =
      s.cache.filter (fun e => !(allDelKeys now s.cache.reverse).contains e.1) := by
    have h0 : t₁.cache = eraseKeys s.cache (allDelKeys now s.cache.reverse) := p1c
    rw [h0, eraseKeys_eq_filter]
  have ht1o : t₁.oldCache =
      s.oldCache.filter
        (fun e => !(allDelKeys now s.cache.reverse).contains e.1) := by
    have h0 : t₁.oldCache =
        eraseKeys s.oldCache (allDelKeys now s.cache.reverse) := p1o
    rw [h0, eraseKeys_eq_filter]
  have hnd_t1old : NodupKeys t₁.oldCache := by
    rw [ht1o]
    exact ((List.filter_sublist _).map Prod.fst).nodup h2
  obtain ⟨p2y, _, _, _, _, _, _⟩ :=
    sweepSkip_spec now t₁.cache t₁.oldCache.reverse t₁ rfl
      (by rw [List.map_reverse]; exact List.nodup_reverse.mpr hnd_t1old)
      (fun e hmem => hasKey_self (List.mem_reverse.mp hmem))
  rw [hp2] at p2y
  have hdesc : (s.entriesDescending now).1 =
      (ys₁ ++ ys₂).map (fun e => (e.1, e.2.value)) := by
    simp [LRU.entriesDescending, hp1, hp2]
  obtain ⟨ay, _, _, _, _, _⟩ := ascRaw_spec s now h1 h2
  have hasc : (s.entriesAscending now).1 =
      (ascPure s now).map (fun e => (e.1, e.2.value)) := by
    rcases hr : s.entriesAscendingRaw now with ⟨items, u, ev⟩
    rw [hr] at ay
    have hi : items = ascPure s now := ay
    simp [LRU.entriesAscending, hr, hi]
  rw [hdesc, hasc]
  have hy1 : ys₁ = (s.cache.filter (fun e => !expiredAt e.2 now)).reverse := by
    have h0 : ys₁ = s.cache.reverse.filter (fun e => !expiredAt e.2 now) := p1y
    rw [h0, List.filter_reverse]
  have hy2 : ys₂ = s.oldCache.reverse.filter
      (fun e => (!hasKey t₁.cache e.1 && !expiredAt e.2 now) &&
        !(allDelKeys now s.cache.reverse).contains e.1) := by
    have h0 : ys₂ = t₁.oldCache.reverse.filter
        (fun e => !hasKey t₁.cache e.1 && !expiredAt e.2 now) := p2y
    rw [h0, ht1o, ← List.filter_reverse, List.filter_filter]
  have hpoint : ∀ e ∈ s.oldCache.reverse,
      ((!hasKey t₁.cache e.1 && !expiredAt e.2 now) &&
          !(allDelKeys now s.cache.reverse).contains e.1) =
        (!hasKey s.cache e.1 && !expiredAt e.2 now) := by
    intro e _
    by_cases hc : hasKey s.cache e.1 = true
    · rcases hasKey_true_iff.mp hc with ⟨it', hmem'⟩
      by_cases hex : expiredAt it' now = true
      · have hKmem : e.1 ∈ allDelKeys now s.cache.reverse :=
          mem_allDelKeys.mpr ⟨it', List.mem_reverse.mpr hmem', hex⟩
        simp [hKmem, hc]
      · have hKc : (allDelKeys now s.cache.reverse).contains e.1 = false := by
          rw [contains_false_iff]
          intro hmemK
          rcases mem_allDelKeys.mp hmemK with ⟨it'', hmem'', hex''⟩
          have heq := nodupKeys_inj h1 hmem' (List.mem_reverse.mp hmem'')
          rw [← heq] at hex''
          exact hex hex''
        have hKnot : e.1 ∉ allDelKeys now s.cache.reverse :=
          contains_false_iff.mp hKc
        have hkt : hasKey t₁.cache e.1 = true := by
          rw [ht1c]
          exact hasKey_true_iff.mpr
            ⟨it', List.mem_filter.mpr ⟨hmem', by simp [hKnot]⟩⟩
        simp [hkt, hc]
    · have hcf : hasKey s.cache e.1 = false := by simpa using hc
      have hKc : (allDelKeys now s.cache.reverse).contains e.1 = false := by
        rw [contains_false_iff]
        intro hmemK
        rcases mem_allDelKeys.mp hmemK with ⟨it'', hmem'', _⟩
        have : hasKey s.cache e.1 = true :=
          hasKey_true_iff.mpr ⟨it'', List.mem_reverse.mp hmem''⟩
        rw [this] at hcf
        exact Bool.noConfusion hcf
      have hkt : hasKey t₁.cache e.1 = false := by
        cases hkk : hasKey t₁.cache e.1
        · rfl
        · exfalso
          have := hasKey_filter_le (ht1c ▸ hkk)
          rw [this] at hcf
          exact Bool.noConfusion hcf
      have hKnot : e.1 ∉ allDelKeys now s.cache.reverse :=
        contains_false_iff.mp hKc
      simp [hkt, hcf, hKnot]
  have hfiltereq := List.filter_congr hpoint
  unfold ascPure
  rw [hy1, hy2, hfiltereq]
  rw [List.map_append, List.map_append, List.reverse_append]
  congr 1
  · rw [List.map_reverse]
  · rw [List.filter_reverse, List.map_reverse]

theorem mem_skipDelKeys {now : Int} {C : EMap} {l : List Entry} {x : Nat} :
    x ∈ skipDelKeys now C l ↔
      ∃ it, (x, it) ∈ l ∧ hasKey C x = false ∧ expiredAt it now = true := by
  unfold skipDelKeys
  constructor
  · intro h
    rcases List.mem_map.mp h with ⟨e, hmem, hk⟩
    have hf := List.mem_filter.mp hmem
    have hp := hf.2
    simp only [Bool.and_eq_true, Bool.not_eq_true'] at hp
    subst hk
    exact ⟨e.2, by simpa using hf.1, hp.1, hp.2⟩
  · rintro ⟨it, hmem, hck, hexp⟩
    exact List.mem_map.mpr
      ⟨(x, it), List.mem_filter.mpr ⟨hmem, by simp [hck, hexp]⟩, rfl⟩

theorem entry_eta (e : Entry) : (e.1, e.2) = e := rfl

theorem hasKey_filter_key (m : EMap) (p : Nat → Bool) (x : Nat) :
    hasKey (m.filter (fun e => p e.1)) x = (hasKey m x && p x) := by
  cases hm : hasKey m x
  · have : hasKey (m.filter (fun e => p e.1)) x = false := by
      cases hk : hasKey (m.filter (fun e => p e.1)) x
      · rfl
      · exfalso
        have := hasKey_filter_le hk
        rw [this] at hm
        exact Bool.noConfusion hm
    rw [this]
    simp
  · rcases hasKey_true_iff.mp hm with ⟨it, hmem⟩
    cases hp : p x
    · have : hasKey (m.filter (fun e => p e.1)) x = false := by
        rw [hasKey_false_iff]
        intro e hmem' hk
        have hpe := List.of_mem_filter hmem'
        rw [hk, hp] at hpe
        exact Bool.noConfusion hpe
      rw [this]
      simp
    · have : hasKey (m.filter (fun e => p e.1)) x = true :=
        hasKey_true_iff.mpr
          ⟨it, List.mem_filter.mpr ⟨hmem, by simpa using hp⟩⟩
    
      rw [this]
      simp

theorem ascPure_fix (s : LRU) (now : Int) (h1 : NodupKeys s.cache)
    (h2 : NodupKeys s.oldCache) :
    ascPure (s.entriesAscendingRaw now).2.1 now =
      (s.entriesAscendingRaw now).1 := by
  obtain ⟨ay, ac, ao, _, _, _⟩ := ascRaw_spec s now h1 h2
  rw [ay]
  unfold ascPure
  rw [ac, ao, eraseKeys_eq_filter, eraseKeys_eq_filter, eraseKeys_eq_filter]
  congr 1
  · rw [List.filter_filter, List.filter_filter]
    apply List.filter_congr
    intro e hmem
    rw [show (fun e : Entry => !(allDelKeys now s.cache).contains e.1) =
      (fun e : Entry =>
        (fun x => !(allDelKeys now s.cache).contains x) e.1) from rfl]
    rw [hasKey_filter_key s.cache
      (fun x => !(allDelKeys now s.cache).contains x) e.1]
    by_cases hc : hasKey s.cache e.1 = true
    · rcases hasKey_true_iff.mp hc with ⟨it', hmem'⟩
      by_cases hex : expiredAt it' now = true
      · have hK2 : (allDelKeys now s.cache).contains e.1 = true :=
          contains_true_iff.mpr (mem_allDelKeys.mpr ⟨it', hmem', hex⟩)
        rw [hc, hK2]
        simp
      · have hK2 : (allDelKeys now s.cache).contains e.1 = false := by
          rw [contains_false_iff]
          intro hmemK
          rcases mem_allDelKeys.mp hmemK with ⟨it'', hmem'', hex''⟩
          rw [← nodupKeys_inj h1 hmem' hmem''] at hex''
          exact hex hex''
        rw [hc, hK2]
        simp
    · have hcf : hasKey s.cache e.1 = false := by simpa using hc
      have hK2 : (allDelKeys now s.cache).contains e.1 = false := by
        rw [contains_false_iff]
        intro hmemK
        rcases mem_allDelKeys.mp hmemK with ⟨it'', hmem'', _⟩
        have hh : hasKey s.cache e.1 = true := hasKey_true_iff.mpr ⟨it'', hmem''⟩
        rw [hh] at hcf
        exact Bool.noConfusion hcf
      by_cases hex : expiredAt e.2 now = true
      · have hK1 : (skipDelKeys now s.cache s.oldCache).contains e.1 = true :=
          contains_true_iff.mpr (mem_skipDelKeys.mpr
            ⟨e.2, by simpa [entry_eta] using hmem, hcf, hex⟩)
        rw [hcf, hK2, hK1, hex]
        simp
      · have hexf : expiredAt e.2 now = false := by simpa using hex
        have hK1 : (skipDelKeys now s.cache s.oldCache).contains e.1 = false := by
          rw [contains_false_iff]
          intro hmemK
          rcases mem_skipDelKeys.mp hmemK with ⟨it'', hmem'', _, hex''⟩
          rw [← nodupKeys_inj h2 (by simpa [entry_eta] using hmem) hmem''] at hex''
          exact hex hex''
        rw [hcf, hK2, hK1, hexf]
        simp
  · rw [List.filter_filter]
    apply List.filter_congr
    intro e hmem
    by_cases hex : expiredAt e.2 now = true
    · rw [hex]
      simp
    · have hexf : expiredAt e.2 now = false := by simpa using hex
      have hK2 : (allDelKeys now s.cache).contains e.1 = false := by
        rw [contains_false_iff]
        intro hmemK
        rcases mem_allDelKeys.mp hmemK with ⟨it'', hmem'', hex''⟩
        rw [← nodupKeys_inj h1 (by simpa [entry_eta] using hmem) hmem''] at hex''
        exact hex hex''
      rw [hexf, hK2]
      simp

theorem ascPure_drop (s₁ : LRU) (items : List Entry) (n : Nat) (now : Int)
    (hlive : ∀ e ∈ items, expiredAt e.2 now = false) :
    ascPure { s₁ with oldCache := items.drop n, cache := [], size := 0 } now =
      items.drop n := by
  unfold ascPure
  dsimp only
  rw [show List.filter (fun e : Entry => !expiredAt e.2 now) ([] : EMap) = []
    from rfl]
  rw [List.append_nil]
  apply List.filter_eq_self.mpr
  intro e hmem
  have he : expiredAt e.2 now = false :=
    hlive e ((List.drop_sublist n items).subset hmem)
  simp [hasKey, List.find?, he]

theorem ascState_nodups (s : LRU) (now : Int) (h1 : NodupKeys s.cache)
    (h2 : NodupKeys s.oldCache) :
    NodupKeys (s.entriesAscendingRaw now).2.1.cache ∧
      NodupKeys (s.entriesAscendingRaw now).2.1.oldCache := by
  obtain ⟨_, ac, ao, _, _, _⟩ := ascRaw_spec s now h1 h2
  constructor
  · rw [ac, eraseKeys_eq_filter]
    exact ((List.filter_sublist _).map Prod.fst).nodup h1
  · rw [ao, eraseKeys_eq_filter, eraseKeys_eq_filter]
    exact ((List.filter_sublist _).map Prod.fst).nodup
      (((List.filter_sublist _).map Prod.fst).nodup h2)

theorem minTrunc_le (c : JSNum) (m : Int) (hm : 0 ≤ m) : c.minTrunc m ≤ m := by
  cases c <;> simp [JSNum.minTrunc] <;> omega

theorem evict_noop (s : LRU) (c : JSNum) (now : Int)
    (hng : (!c.truthy || c.jle 0) = true) : s.evict c now = (s, []) := by
  unfold LRU.evict
  rw [if_pos hng]

theorem evict_spec (s : LRU) (c : JSNum) (now : Int)
    (h1 : NodupKeys s.cache) (h2 : NodupKeys s.oldCache)
    (hg : (!c.truthy || c.jle 0) = false) :
    ((s.evict c now).1.entriesAscendingRaw now).1 =
        (s.entriesAscendingRaw now).1.drop
          (c.minTrunc
            (max (((s.entriesAscendingRaw now).1.length : Int) - 1) 0)).toNat ∧
      (s.evict c now).2 =
        (s.entriesAscendingRaw now).2.2 ++
          emitEvictions ((s.entriesAscendingRaw now).1.take
            (c.minTrunc
              (max (((s.entriesAscendingRaw now).1.length : Int) - 1)
                0)).toNat) := by
  have hlive : ∀ e ∈ (s.entriesAscendingRaw now).1, expiredAt e.2 now = false := by
    obtain ⟨ay, _, _, _, _, _⟩ := ascRaw_spec s now h1 h2
    rw [ay]
    exact ascPure_live s now
  obtain ⟨hnc, hno⟩ := ascState_nodups s now h1 h2
  have hfix := ascPure_fix s now h1 h2
  obtain ⟨ay1, _, _, _, _, _⟩ :=
    ascRaw_spec (s.entriesAscendingRaw now).2.1 now hnc hno
  have hev : s.evict c now =
      (if c.minTrunc
          (max (((s.entriesAscendingRaw now).1.length : Int) - 1) 0) ≤ 0 then
        ((s.entriesAscendingRaw now).2.1, (s.entriesAscendingRaw now).2.2)
      else
        ({ (s.entriesAscendingRaw now).2.1 with
            oldCache := (s.entriesAscendingRaw now).1.drop
              (c.minTrunc
                (max (((s.entriesAscendingRaw now).1.length : Int) - 1)
                  0)).toNat,
            cache := [], size := 0 },
          (s.entriesAscendingRaw now).2.2 ++
            emitEvictions ((s.entriesAscendingRaw now).1.take
              (c.minTrunc
                (max (((s.entriesAscendingRaw now).1.length : Int) - 1)
                  0)).toNat))) := by
    unfold LRU.evict
    rw [if_neg (by simp [hg])]
  by_cases hec : c.minTrunc
      (max (((s.entriesAscendingRaw now).1.length : Int) - 1) 0) ≤ 0
  · rw [hev, if_pos hec]
    have hn0 : (c.minTrunc
        (max (((s.entriesAscendingRaw now).1.length : Int) - 1) 0)).toNat =
        0 := Int.toNat_of_nonpos hec
    rw [hn0]
    constructor
    · rw [List.drop_zero, ay1, hfix]
    · rw [List.take_zero]
      simp [emitEvictions]
  · rw [hev, if_neg hec]
    constructor
    · dsimp only
      obtain ⟨ay2, _, _, _, _, _⟩ :=
        ascRaw_spec { (s.entriesAscendingRaw now).2.1 with
            oldCache := (s.entriesAscendingRaw now).1.drop
              (c.minTrunc
                (max (((s.entriesAscendingRaw now).1.length : Int) - 1)
                  0)).toNat,
            cache := [], size := 0 } now
          (by simp [NodupKeys])
          (by
            show NodupKeys ((s.entriesAscendingRaw now).1.drop _)
            unfold NodupKeys
            rw [List.map_drop]
            refine List.Nodup.sublist (List.drop_sublist _ _) ?_
            have : NodupKeys (s.entriesAscendingRaw now).1 := by
              obtain ⟨ay, _, _, _, _, _⟩ := ascRaw_spec s now h1 h2
              rw [ay]
              exact nodup_ascPure h1 h2
            exact this)
      rw [ay2]
      exact ascPure_drop _ _ _ now hlive
    · rfl

-- ## Promotion survival (claim C3)

theorem runSets_cons (s : LRU) (q : Nat × Nat × TTLArg × Int)
    (l : List (Nat × Nat × TTLArg × Int)) :
    runSets s (q :: l) = runSets (s.set q.1 q.2.1 q.2.2.1 q.2.2.2).1 l := by
  simp [runSets]

theorem set_cache_insert {s : LRU} {x v : Nat} {arg : TTLArg} {now : Int}
    (hx : hasKey s.cache x = false) :
    (s.set x v arg now).1.cache = [] ∨
      (s.set x v arg now).1.cache =
        s.cache ++ [(x, ⟨v, computeExpiry arg s.maxAge now⟩)] := by
  unfold LRU.set
  rw [if_neg (by simp [hx])]
  unfold LRU.setInternal
  by_cases hrot : s.size + 1 ≥ (s.maxSize : Int)
  · rw [if_pos hrot]
    left
    rfl
  · rw [if_neg hrot]
    right
    dsimp only
    exact msetE_of_not_has _ hx

theorem SurvInv_set {s : LRU} {k x v : Nat} {arg : TTLArg} {now : Int}
    {b : Nat} (hx1 : x ≠ k) (hx2 : hasKey s.cache x = false)
    (h : SurvInv k (b + 1) s) : SurvInv k b (s.set x v arg now).1 := by
  obtain ⟨⟨hsz, hlt, hms⟩, hbr⟩ := h
  unfold LRU.set
  rw [if_neg (by simp [hx2])]
  unfold LRU.setInternal
  have hlen := length_msetE_of_not_has
    (⟨v, computeExpiry arg s.maxAge now⟩ : CacheItem) hx2
  have hmset := msetE_of_not_has
    (⟨v, computeExpiry arg s.maxAge now⟩ : CacheItem) hx2
  by_cases hrot : s.size + 1 ≥ (s.maxSize : Int)
  · rw [if_pos hrot]
    have hlen1 : s.cache.length + 1 = s.maxSize := by omega
    rcases hbr with ⟨⟨vk, hvk⟩, hbd⟩ | ⟨⟨vk, hvk⟩, hck, hbd⟩
    · refine ⟨⟨rfl, by simpa using hms, hms⟩, Or.inr ⟨⟨vk, ?_⟩, rfl, ?_⟩⟩
      · dsimp only
        rw [hmset]
        rw [mget_append_of_has _ (hasKey_of_mget_some hvk)]
        exact hvk
      · dsimp only
        simp only [List.length_nil]
        omega
    · exfalso
      omega
  · rw [if_neg hrot]
    rcases hbr with ⟨⟨vk, hvk⟩, hbd⟩ | ⟨⟨vk, hvk⟩, hck, hbd⟩
    · refine ⟨⟨?_, ?_, hms⟩, Or.inl ⟨⟨vk, ?_⟩, ?_⟩⟩
      · dsimp only
        omega
      · dsimp only
        omega
      · dsimp only
        rw [hmset, mget_append_of_has _ (hasKey_of_mget_some hvk)]
        exact hvk
      · dsimp only
        omega
    · refine ⟨⟨?_, ?_, hms⟩, Or.inr ⟨⟨vk, hvk⟩, ?_, ?_⟩⟩
      · dsimp only
        omega
      · dsimp only
        omega
      · dsimp only
        rw [hmset, hasKey_append_single]
        simp [hck, hx1]
      · dsimp only
        omega

theorem SurvInv_has {s : LRU} {k : Nat} (h : SurvInv k 0 s) (now : Int) :
    (s.has k now).1 = true := by
  obtain ⟨_, hbr⟩ := h
  unfold LRU.has
  rcases hbr with ⟨⟨v, hv⟩, _⟩ | ⟨⟨v, hv⟩, hck, _⟩
  · simp [hv, LRU.deleteIfExpired, expiredAt]
  · have hmc : mget s.cache k = none := mget_eq_none_of_not_has hck
    simp [hmc, hv, LRU.deleteIfExpired, expiredAt]

theorem SurvInv_runSets (k : Nat) :
    ∀ (l : List (Nat × Nat × TTLArg × Int)) (s : LRU),
      SurvInv k l.length s →
      (l.map (fun q => q.1)).Nodup →
      (∀ q ∈ l, q.1 ≠ k ∧ hasKey s.cache q.1 = false) →
      SurvInv k 0 (runSets s l) := by
  intro l
  induction l with
  | nil =>
    intro s h _ _
    exact h
  | cons q rest ih =>
    intro s h hnd hfr
    rw [runSets_cons]
    have hq := hfr q (List.mem_cons_self _ _)
    simp only [List.map_cons, List.nodup_cons] at hnd
    apply ih
    · exact SurvInv_set hq.1 hq.2 (by simpa using h)
    · exact hnd.2
    · intro q' hmem
      refine ⟨(hfr q' (List.mem_cons_of_mem _ hmem)).1, ?_⟩
      rcases set_cache_insert hq.2 with hcc | hcc
      · rw [hcc]
        rfl
      · rw [hcc, hasKey_append_single]
        have h1 : hasKey s.cache q'.1 = false :=
          (hfr q' (List.mem_cons_of_mem _ hmem)).2
        have h2 : q.1 ≠ q'.1 := by
          intro heq
          exact hnd.1 (heq ▸ List.mem_map.mpr ⟨q', hmem, rfl⟩)
        simp [h1, h2]

theorem promote_SurvInv {s : LRU} {k : Nat} {now : Int} {it : CacheItem}
    (b : Nat) (hw : WF s) (hck : hasKey s.cache k = false)
    (hmo : mget s.oldCache k = some it) (hexp : it.expiry = none)
    (hb : b ≤ s.maxSize - 1 ∨ ((s.get k now).2.1.size ≠ 0 ∧ b ≤ s.maxSize)) :
    (s.get k now).1 = some it.value ∧ SurvInv k b (s.get k now).2.1 := by
  have hmc : mget s.cache k = none := mget_eq_none_of_not_has hck
  have hde : s.deleteIfExpired now k it = (false, s, []) := by
    simp [LRU.deleteIfExpired, expiredAt, hexp]
  have hit : it = ⟨it.value, none⟩ := by
    cases it
    simp_all
  have hget : s.get k now =
      (some it.value, (s.moveToRecent k it).1, (s.moveToRecent k it).2) := by
    unfold LRU.get
    rcases hmv : s.moveToRecent k it with ⟨s'', ev'⟩
    simp [hmc, hmo, hde, hmv]
  rw [hget]
  refine ⟨rfl, ?_⟩
  unfold LRU.moveToRecent LRU.setInternal
  have hmset := msetE_of_not_has it hck
  have hlen := length_msetE_of_not_has it hck
  have hsz := hw.size_eq
  have hlt := hw.cache_lt
  have hms := hw.maxSize_pos
  by_cases hrot : s.size + 1 ≥ (s.maxSize : Int)
  · rw [if_pos hrot]
    have hbL : b ≤ s.maxSize - 1 := by
      rcases hb with hbl | ⟨hne, _⟩
      · exact hbl
      · exfalso
        apply hne
        rw [hget]
        dsimp only
        unfold LRU.moveToRecent LRU.setInternal
        rw [if_pos hrot]
    refine ⟨⟨rfl, by simpa using hms, hms⟩, Or.inr ⟨⟨it.value, ?_⟩, rfl, ?_⟩⟩
    · dsimp only
      rw [hmset, mget_append_single_self it hck, hit]
    · dsimp only
      simp only [List.length_nil]
      omega
  · rw [if_neg hrot]
    have hbM : b ≤ s.maxSize := by
      rcases hb with hbl | ⟨_, hbm⟩
      · omega
      · exact hbm
    refine ⟨⟨?_, ?_, hms⟩, Or.inl ⟨⟨it.value, ?_⟩, ?_⟩⟩
    · dsimp only
      omega
    · dsimp only
      omega
    · dsimp only
      rw [hmset, mget_append_single_self it hck, hit]
    · dsimp only
      omega

-- ## Ghost insert/removal bookkeeping (claim C7)

theorem ghostExec_state (t : List Op) :
    ∀ (s : LRU) (g : Int × Int), (ghostExec s g t).1 = execTrace s t := by
  induction t with
  | nil =>
    intro s g
    rfl
  | cons op rest ih =>
    intro s g
    rw [execTrace_cons]
    exact ih (stepEv s op).1 (ghostStep s g op)

theorem ghostStep_set (s : LRU) (g : Int × Int) (k v : Nat) (ttl : TTLArg)
    (now : Int) :
    ghostStep s g (.set k v ttl now) =
      (if hasKey s.cache k then g
       else if s.size + 1 ≥ (s.maxSize : Int) then (0, 0)
       else (g.1 + 1, g.2)) := rfl

theorem ghostStep_get (s : LRU) (g : Int × Int) (k : Nat) (now : Int) :
    ghostStep s g (.get k now) =
      (match mget s.cache k with
       | some it =>
         if expiryTruthy it.expiry && expiredAt it now then (g.1, g.2 + 1)
         else g
       | none =>
         match mget s.oldCache k with
         | some it =>
           if expiredAt it now then g
           else if s.size + 1 ≥ (s.maxSize : Int) then (0, 0)
           else (g.1 + 1, g.2)
         | none => g) := rfl

theorem ghostStep_has (s : LRU) (g : Int × Int) (k : Nat) (now : Int) :
    ghostStep s g (.has k now) =
      (match mget s.cache k with
       | some it => if expiredAt it now then (g.1, g.2 + 1) else g
       | none => g) := rfl

theorem ghostStep_peek (s : LRU) (g : Int × Int) (k : Nat) (now : Int) :
    ghostStep s g (.peek k now) =
      (match mget s.cache k with
       | some it =>
         if expiryTruthy it.expiry && expiredAt it now then (g.1, g.2 + 1)
         else g
       | none => g) := rfl

theorem ghostStep_del (s : LRU) (g : Int × Int) (k : Nat) :
    ghostStep s g (.del k) =
      (if hasKey s.cache k then (g.1, g.2 + 1) else g) := rfl

theorem stepGhost_size (s : LRU) (g : Int × Int) (op : Op)
    (hb : isBasic op = true) (h : s.size = g.1 - g.2) :
    (stepEv s op).1.size = (ghostStep s g op).1 - (ghostStep s g op).2 := by
  cases op with
  | set k v ttl now =>
    show (s.set k v ttl now).1.size = _
    rw [ghostStep_set]
    unfold LRU.set LRU.setInternal
    cases hc : hasKey s.cache k
    · simp only [Bool.false_eq_true, if_false]
      by_cases hrot : s.size + 1 ≥ (s.maxSize : Int)
      · rw [if_pos hrot, if_pos hrot]
        simp
      · rw [if_neg hrot, if_neg hrot]
        dsimp only
        omega
    · simp only [if_true]
      exact h
  | get k now =>
    rw [stepEv_get_fst, ghostStep_get]
    unfold LRU.get
    cases hmc : mget s.cache k with
    | some it =>
      simp only
      rw [getItemValue_snd]
      cases hbt : (expiryTruthy it.expiry && expiredAt it now)
      · simp only [Bool.false_eq_true, if_false]
        exact h
      · simp only [if_true]
        rw [delete_snd]
        dsimp only
        rw [hasKey_of_mget_some hmc]
        simp only [if_true]
        omega
    | none =>
      cases hmo : mget s.oldCache k with
      | some it =>
        simp only
        cases hex : expiredAt it now
        · have hde : s.deleteIfExpired now k it = (false, s, []) := by
            simp [LRU.deleteIfExpired, hex]
          rcases hmv : s.moveToRecent k it with ⟨s'', ev'⟩
          simp only [hde, hmv, Bool.false_eq_true, if_false]
          have hs'' : s'' = (s.moveToRecent k it).1 := by rw [hmv]
          rw [hs'']
          unfold LRU.moveToRecent LRU.setInternal
          by_cases hrot : s.size + 1 ≥ (s.maxSize : Int)
          · rw [if_pos (show ({ s with oldCache := eraseKey s.oldCache k
                : LRU }).size + 1 ≥
                (({ s with oldCache := eraseKey s.oldCache k : LRU }).maxSize
                  : Int) from hrot), if_pos hrot]
            simp
          · rw [if_neg (show ¬(({ s with oldCache := eraseKey s.oldCache k
                : LRU }).size + 1 ≥
                (({ s with oldCache := eraseKey s.oldCache k : LRU }).maxSize
                  : Int)) from hrot), if_neg hrot]
            dsimp only
            omega
        · have hde : s.deleteIfExpired now k it =
              (true, (s.delete k).2, [(k, it.value)]) := by
            simp [LRU.deleteIfExpired, hex, LRU.delete,
              hasKey_of_mget_some hmo]
          simp only [hde, if_true]
          rw [delete_snd]
          dsimp only
          rw [hasKey_eq_false_of_mget_none hmc]
          simp only [Bool.false_eq_true, if_false]
          exact h
      | none =>
        simp only
        exact h
  | has k now =>
    rw [stepEv_has_fst, ghostStep_has]
    unfold LRU.has
    cases hmc : mget s.cache k with
    | some it =>
      simp only
      cases hex : expiredAt it now
      · have hde : s.deleteIfExpired now k it = (false, s, []) := by
          simp [LRU.deleteIfExpired, hex]
        simp only [hde, Bool.false_eq_true, if_false]
        exact h
      · have hde : s.deleteIfExpired now k it =
            (true, (s.delete k).2, [(k, it.value)]) := by
          simp [LRU.deleteIfExpired, hex, LRU.delete, hasKey_of_mget_some hmc]
        simp only [hde, if_true]
        rw [delete_snd]
        dsimp only
        rw [hasKey_of_mget_some hmc]
        simp only [if_true]
        omega
    | none =>
      cases hmo : mget s.oldCache k with
      | some it =>
        simp only
        cases hex : expiredAt it now
        · have hde : s.deleteIfExpired now k it = (false, s, []) := by
            simp [LRU.deleteIfExpired, hex]
          simp only [hde]
          exact h
        · have hde : s.deleteIfExpired now k it =
              (true, (s.delete k).2, [(k, it.value)]) := by
            simp [LRU.deleteIfExpired, hex, LRU.delete,
              hasKey_of_mget_some hmo]
          simp only [hde]
          rw [delete_snd]
          dsimp only
          rw [hasKey_eq_false_of_mget_none hmc]
          simp only [Bool.false_eq_true, if_false]
          exact h
      | none =>
        simp only
        exact h
  | peek k now =>
    rw [stepEv_peek_fst, ghostStep_peek]
    unfold LRU.peek
    cases hmc : mget s.cache k with
    | some it =>
      simp only
      rw [getItemValue_snd]
      cases hbt : (expiryTruthy it.expiry && expiredAt it now)
      · simp only [Bool.false_eq_true, if_false]
        exact h
      · simp only [if_true]
        rw [delete_snd]
        dsimp only
        rw [hasKey_of_mget_some hmc]
        simp only [if_true]
        omega
    | none =>
      cases hmo : mget s.oldCache k with
      | some it =>
        simp only
        rw [getItemValue_snd]
        cases hbt : (expiryTruthy it.expiry && expiredAt it now)
        · simp only [Bool.false_eq_true, if_false]
          exact h
        · simp only [if_true]
          rw [delete_snd]
          dsimp only
          rw [hasKey_eq_false_of_mget_none hmc]
          simp only [Bool.false_eq_true, if_false]
          exact h
      | none =>
        simp only
        exact h
  | del k =>
    show (s.delete k).2.size = _
    rw [ghostStep_del, delete_snd]
    cases hc : hasKey s.cache k
    · simp only [Bool.false_eq_true, if_false]
      exact h
    · simp only [if_true]
      omega
  | clear =>
    show s.clear.size = _
    unfold LRU.clear
    show (0 : Int) = (ghostStep s g .clear).1 - (ghostStep s g .clear).2
    rfl
  | resize n now => exact absurd hb (by simp [isBasic])
  | evict c now => exact absurd hb (by simp [isBasic])
  | iterA now => exact absurd hb (by simp [isBasic])
  | iterD now => exact absurd hb (by simp [isBasic])
  | iterP now => exact absurd hb (by simp [isBasic])

theorem ghost_size (t : List Op) :
    ∀ (s : LRU) (g : Int × Int), (∀ op ∈ t, isBasic op = true) →
      s.size = g.1 - g.2 →
      (ghostExec s g t).1.size =
        (ghostExec s g t).2.1 - (ghostExec s g t).2.2 := by
  induction t with
  | nil =>
    intro s g _ h
    exact h
  | cons op rest ih =>
    intro s g hb h
    show (ghostExec (stepEv s op).1 (ghostStep s g op) rest).1.size = _
    exact ih (stepEv s op).1 (ghostStep s g op)
      (fun op' hmem => hb op' (List.mem_cons_of_mem _ hmem))
      (stepGhost_size s g op (hb op (List.mem_cons_self _ _)) h)

-- ## Shape lemmas for peek (claim C6) and promotion freshness (claim C3)

theorem peek_snd_shape (s : LRU) (k : Nat) (now : Int) :
    (s.peek k now).2.1 = s ∨ (s.peek k now).2.1 = (s.delete k).2 := by
  unfold LRU.peek
  cases hmc : mget s.cache k with
  | some it =>
    rw [getItemValue_snd]
    cases hbt : (expiryTruthy it.expiry && expiredAt it now)
    · simp
    · simp
  | none =>
    cases hmo : mget s.oldCache k with
    | some it =>
      rw [getItemValue_snd]
      cases hbt : (expiryTruthy it.expiry && expiredAt it now)
      · simp
      · simp
    | none => simp

theorem promote_cache_shape {s : LRU} {k : Nat} {now : Int} {it : CacheItem}
    (hck : hasKey s.cache k = false) (hmo : mget s.oldCache k = some it)
    (hexp : it.expiry = none) :
    (s.get k now).2.1.cache = [] ∨
      (s.get k now).2.1.cache = s.cache ++ [(k, it)] := by
  have hmc : mget s.cache k = none := mget_eq_none_of_not_has hck
  have hde : s.deleteIfExpired now k it = (false, s, []) := by
    simp [LRU.deleteIfExpired, expiredAt, hexp]
  have hget : (s.get k now).2.1 = (s.moveToRecent k it).1 := by
    unfold LRU.get
    rcases hmv : s.moveToRecent k it with ⟨s'', ev'⟩
    simp [hmc, hmo, hde, hmv]
  rw [hget]
  unfold LRU.moveToRecent LRU.setInternal
  by_cases hrot : s.size + 1 ≥ (s.maxSize : Int)
  · rw [if_pos hrot]
    left
    rfl
  · rw [if_neg hrot]
    right
    dsimp only
    exact msetE_of_not_has it hck

-- ## The claims

/-- Claim C1, counterexample.  The claim asserts that after every sequence
of public operations the reported `size` is at most `maxSize` and the raw
entry count is at most `2 * maxSize`.  Both bounds fail through `evict`:
with `maxSize = 3`, five inserts followed by `evict(1)` leave the reported
size at 4, and two such rounds accumulate 7 raw entries. -/
theorem claim1_counterexample :
    ((execTrace (initLRU 3 .posInf)
        [.set 1 1 .absent 0, .set 2 2 .absent 0, .set 3 3 .absent 0,
         .set 4 4 .absent 0, .set 5 5 .absent 0,
         .evict (.int 1) 0]).sizeGetter = 4 ∧
      (execTrace (initLRU 3 .posInf)
        [.set 1 1 .absent 0, .set 2 2 .absent 0, .set 3 3 .absent 0,
         .set 4 4 .absent 0, .set 5 5 .absent 0,
         .evict (.int 1) 0]).maxSize = 3) ∧
    (let s2 := execTrace (initLRU 3 .posInf)
        [.set 1 1 .absent 0, .set 2 2 .absent 0, .set 3 3 .absent 0,
         .set 4 4 .absent 0, .set 5 5 .absent 0, .evict (.int 1) 0,
         .set 6 6 .absent 0, .set 7 7 .absent 0, .evict (.int 1) 0,
         .set 8 8 .absent 0, .set 9 9 .absent 0];
      s2.maxSize = 3 ∧ s2.cache.length + s2.oldCache.length = 7) := by
  decide

/-- Claim C1, amended: for every sequence of public operations without
`evict`, starting from a freshly constructed cache with positive integer
capacity, the reported `size` is at most the current capacity and the two
generation maps together hold at most `2 * maxSize` raw entries.  (The
original claim also covered `evict`, which violates both bounds.) -/
theorem claim1_capacity_bound (m : Nat) (a : JSNum) (t : List Op)
    (hm : 1 ≤ m) (hev : ∀ op ∈ t, isEvict op = false) :
    (execTrace (initLRU m a) t).sizeGetter ≤
        ((execTrace (initLRU m a) t).maxSize : Int) ∧
      (execTrace (initLRU m a) t).cache.length +
          (execTrace (initLRU m a) t).oldCache.length ≤
        2 * (execTrace (initLRU m a) t).maxSize := by
  have hinit : WF (initLRU m a) ∧ OldBnd (initLRU m a) :=
    ⟨⟨hm, rfl, by simpa [initLRU] using hm, by simp [initLRU, NodupKeys],
      by simp [initLRU, NodupKeys]⟩, by simp [OldBnd, initLRU]⟩
  obtain ⟨hw, hb⟩ := InvE_execTrace t (initLRU m a) hev hinit
  constructor
  · unfold LRU.sizeGetter
    by_cases hz : (execTrace (initLRU m a) t).size = 0
    · rw [if_pos hz]
      exact_mod_cast hb
    · rw [if_neg hz]
      exact min_le_right _ _
  · have h1 := hw.cache_lt
    have h2 := hb
    unfold OldBnd at h2
    omega

/-- Claim C1, witness for the amended bound. -/
theorem claim1_capacity_bound_witness :
    ((1 : Nat) ≤ 2) ∧
    ((execTrace (initLRU 2 .posInf)
        [.set 1 1 .absent 0, .set 2 2 .absent 0, .get 1 0,
         .set 3 3 .absent 0]).sizeGetter ≤
      ((execTrace (initLRU 2 .posInf)
        [.set 1 1 .absent 0, .set 2 2 .absent 0, .get 1 0,
         .set 3 3 .absent 0]).maxSize : Int) ∧
      (execTrace (initLRU 2 .posInf)
        [.set 1 1 .absent 0, .set 2 2 .absent 0, .get 1 0,
         .set 3 3 .absent 0]).cache.length +
          (execTrace (initLRU 2 .posInf)
            [.set 1 1 .absent 0, .set 2 2 .absent 0, .get 1 0,
             .set 3 3 .absent 0]).oldCache.length ≤
        2 * (execTrace (initLRU 2 .posInf)
          [.set 1 1 .absent 0, .set 2 2 .absent 0, .get 1 0,
           .set 3 3 .absent 0]).maxSize) :=
  ⟨by decide,
    claim1_capacity_bound 2 .posInf
      [.set 1 1 .absent 0, .set 2 2 .absent 0, .get 1 0, .set 3 3 .absent 0]
      (by decide) (by decide)⟩

/-- Claim C2: `evict(count)` is a no-op when the count is not a positive
number; otherwise it removes the `truncateTowardZero(min(count,
max(L - 1, 0)))` oldest entries of the ascending-reconciled non-expired
list of length `L`, firing `onEviction` for each removed entry, so at
least one non-expired entry survives whenever the list was non-empty. -/
theorem claim2_evict_semantics (s : LRU) (c : JSNum) (now : Int)
    (h1 : NodupKeys s.cache) (h2 : NodupKeys s.oldCache) :
    ((!c.truthy || c.jle 0) = true → s.evict c now = (s, [])) ∧
    ((!c.truthy || c.jle 0) = false →
      ((s.evict c now).1.entriesAscendingRaw now).1 =
          (s.entriesAscendingRaw now).1.drop
            (c.minTrunc
              (max (((s.entriesAscendingRaw now).1.length : Int) - 1)
                0)).toNat ∧
        (s.evict c now).2 =
          (s.entriesAscendingRaw now).2.2 ++
            emitEvictions ((s.entriesAscendingRaw now).1.take
              (c.minTrunc
                (max (((s.entriesAscendingRaw now).1.length : Int) - 1)
                  0)).toNat) ∧
        (1 ≤ (s.entriesAscendingRaw now).1.length →
          1 ≤ ((s.evict c now).1.entriesAscendingRaw now).1.length)) := by
  refine ⟨fun hng => evict_noop s c now hng, fun hg => ?_⟩
  obtain ⟨e1, e2⟩ := evict_spec s c now h1 h2 hg
  refine ⟨e1, e2, fun hL => ?_⟩
  rw [e1, List.length_drop]
  have hle := minTrunc_le c
    (max (((s.entriesAscendingRaw now).1.length : Int) - 1) 0)
    (le_max_right _ _)
  omega

/-- Claim C2, witness. -/
theorem claim2_evict_semantics_witness :
    (NodupKeys evictDemo.cache ∧ NodupKeys evictDemo.oldCache ∧
      (!(JSNum.posInf).truthy || (JSNum.posInf).jle 0) = false ∧
      1 ≤ (evictDemo.entriesAscendingRaw 0).1.length) ∧
    (((evictDemo.evict .posInf 0).1.entriesAscendingRaw 0).1 =
        (evictDemo.entriesAscendingRaw 0).1.drop
          ((JSNum.posInf).minTrunc
            (max (((evictDemo.entriesAscendingRaw 0).1.length : Int) - 1)
              0)).toNat ∧
      (evictDemo.evict .posInf 0).2 =
        (evictDemo.entriesAscendingRaw 0).2.2 ++
          emitEvictions ((evictDemo.entriesAscendingRaw 0).1.take
            ((JSNum.posInf).minTrunc
              (max (((evictDemo.entriesAscendingRaw 0).1.length : Int) - 1)
                0)).toNat) ∧
      1 ≤ ((evictDemo.evict .posInf 0).1.entriesAscendingRaw 0).1.length) :=
  ⟨⟨by unfold NodupKeys; decide, by unfold NodupKeys; decide, by decide,
      by decide⟩,
    ((claim2_evict_semantics evictDemo .posInf 0 (by unfold NodupKeys; decide)
        (by unfold NodupKeys; decide)).2 (by decide)).1,
    ((claim2_evict_semantics evictDemo .posInf 0 (by unfold NodupKeys; decide)
        (by unfold NodupKeys; decide)).2 (by decide)).2.1,
    ((claim2_evict_semantics evictDemo .posInf 0 (by unfold NodupKeys; decide)
        (by unfold NodupKeys; decide)).2 (by decide)).2.2 (by decide)⟩

/-- Claim C3, counterexample.  The claim asserts a promoted stale key
survives any `maxSize` subsequent distinct fresh inserts.  With
`maxSize = 2`: three inserts put key 1 in the stale generation,
`get(1)` promotes it (returning 1), yet the two fresh inserts 4 and 5
that follow already evict it — the promotion itself rotated, landing
key 1 in the stale generation again, and the second insert rotates
once more. -/
theorem claim3_counterexample :
    (let s0 := execTrace (initLRU 2 .posInf)
        [.set 1 1 .absent 0, .set 2 2 .absent 0, .set 3 3 .absent 0];
      hasKey s0.cache 1 = false ∧ mget s0.oldCache 1 = some ⟨1, none⟩ ∧
        (s0.get 1 0).1 = some 1 ∧
        ((execTrace (s0.get 1 0).2.1
            [.set 4 4 .absent 0, .set 5 5 .absent 0]).has 1 0).1 = false) := by
  decide

/-- Claim C3 (amended): a stale-generation hit with a never-expiring entry
is promoted by `get` (which returns its value), and the key then answers
`has` with true after any list of distinct fresh inserts (none equal to
the key, none already in the recent generation) whose length is at most
`maxSize - 1` — or at most `maxSize` when the promotion itself rotated
(post-`get` insert counter zero is the rotation tell; the hypothesis
states the non-rotating case via a nonzero counter).  The original claim
promised survival for a full `maxSize` inserts unconditionally, which
fails when the promotion rotates.  The claim's concrete `maxSize = 2`
example, whose interleaved `get`s keep re-promoting, does hold. -/
theorem claim3_promotion_survival (m : Nat) (a : JSNum) (t : List Op)
    (k : Nat) (now₀ : Int) (it : CacheItem)
    (l : List (Nat × Nat × TTLArg × Int)) (hm : 1 ≤ m)
    (hck : hasKey (execTrace (initLRU m a) t).cache k = false)
    (hmo : mget (execTrace (initLRU m a) t).oldCache k = some it)
    (hexp : it.expiry = none)
    (hnd : (l.map (fun q => q.1)).Nodup)
    (hfr : ∀ q ∈ l, q.1 ≠ k ∧
      hasKey (execTrace (initLRU m a) t).cache q.1 = false)
    (hb : l.length ≤ (execTrace (initLRU m a) t).maxSize - 1 ∨
      (((execTrace (initLRU m a) t).get k now₀).2.1.size ≠ 0 ∧
        l.length ≤ (execTrace (initLRU m a) t).maxSize)) :
    ((execTrace (initLRU m a) t).get k now₀).1 = some it.value ∧
      (∀ now₁ : Int,
        ((runSets ((execTrace (initLRU m a) t).get k now₀).2.1 l).has k
          now₁).1 = true) ∧
      ((execTrace (initLRU 2 .posInf)
          [.set 1 1 .absent 0, .set 2 2 .absent 0, .get 1 0,
           .set 3 3 .absent 0, .get 1 0, .set 4 4 .absent 0,
           .get 1 0]).has 1 0).1 = true := by
  have hw : WF (execTrace (initLRU m a) t) :=
    WF_execTrace t (initLRU m a)
      ⟨hm, rfl, by simpa [initLRU] using hm, by simp [initLRU, NodupKeys],
        by simp [initLRU, NodupKeys]⟩
  obtain ⟨hres, hsurv⟩ := promote_SurvInv l.length hw hck hmo hexp hb
  refine ⟨hres, ?_, by decide⟩
  intro now₁
  have hfr' : ∀ q ∈ l, q.1 ≠ k ∧
      hasKey ((execTrace (initLRU m a) t).get k now₀).2.1.cache q.1 =
        false := by
    intro q hq
    obtain ⟨hq1, hq2⟩ := hfr q hq
    refine ⟨hq1, ?_⟩
    rcases promote_cache_shape hck hmo hexp with hsh | hsh
    · rw [hsh]
      rfl
    · rw [hsh, hasKey_append_single, hq2]
      have hkq : (k == q.1) = false := by
        simp only [beq_eq_false_iff_ne, ne_eq]
        exact fun hkq => hq1 hkq.symm
      simp [hkq]
  exact SurvInv_has (SurvInv_runSets k l _ hsurv hnd hfr') now₁

/-- Claim C3 (amended), witness. -/
theorem claim3_promotion_survival_witness :
    ((1 : Nat) ≤ 3 ∧
      hasKey (execTrace (initLRU 3 .posInf) promoteTrace).cache 1 = false ∧
      mget (execTrace (initLRU 3 .posInf) promoteTrace).oldCache 1 =
        some ⟨1, none⟩ ∧
      (⟨1, none⟩ : CacheItem).expiry = none ∧
      (promoteSets.map (fun q => q.1)).Nodup ∧
      promoteSets.length ≤
        (execTrace (initLRU 3 .posInf) promoteTrace).maxSize - 1) ∧
    (((execTrace (initLRU 3 .posInf) promoteTrace).get 1 0).1 =
        some (⟨1, none⟩ : CacheItem).value ∧
      ((runSets ((execTrace (initLRU 3 .posInf) promoteTrace).get 1 0).2.1
        promoteSets).has 1 7).1 = true) :=
  ⟨⟨by decide, by decide, by decide, rfl, by decide, by decide⟩,
    (claim3_promotion_survival 3 .posInf promoteTrace 1 0 ⟨1, none⟩
        promoteSets (by decide) (by decide) (by decide) rfl (by decide)
        (by decide) (Or.inl (by decide))).1,
    ((claim3_promotion_survival 3 .posInf promoteTrace 1 0 ⟨1, none⟩
        promoteSets (by decide) (by decide) (by decide) rfl (by decide)
        (by decide) (Or.inl (by decide))).2.1) 7⟩

/-- Claim C4, counterexample.  The claim says non-finite numeric overrides
(`NaN`, `±Infinity`) fall back to the default TTL.  In the code only
`+Infinity` is excluded: a `NaN` override is stored verbatim as the
expiry (`Date.now() + NaN = NaN`), so with default TTL 100 the entry
never expires — `get` still returns the value at time 1000 — instead of
expiring at time 100; and a non-number override yields no expiry rather
than the default. -/
theorem claim4_counterexample :
    computeExpiry (.num .nan) (.int 100) 0 = some .nan ∧
      specExpiryC4 (.num .nan) (.int 100) 0 = some (.int 100) ∧
      computeExpiry (.num .nan) (.int 100) 0 ≠
        specExpiryC4 (.num .nan) (.int 100) 0 ∧
      (let s := (LRU.set (initLRU 5 (.int 100)) 1 7 (.num .nan) 0).1;
        (s.get 1 1000).1 = some 7) ∧
      computeExpiry .nonNumber (.int 100) 0 = none ∧
      specExpiryC4 .nonNumber (.int 100) 0 = some (.int 100) := by
  decide

/-- Claim C4 (amended): `set(key, value, {ttl})` stores the entry (in the
recent generation, or the stale one right after a rotation) with expiry
computed as: a numeric override other than `+Infinity` — including `NaN`
and `-Infinity` — gives `now + override`; a `+Infinity` override, an
absent override with `+Infinity` default, or a non-number override gives
no expiry; an absent override with a finite default gives
`now + defaultTTL`.  (The original claim had `NaN`, `-Infinity` and
non-number overrides falling back to the default TTL.) -/
theorem claim4_expiry_stored (s : LRU) (k v : Nat) (arg : TTLArg)
    (now : Int) :
    ((mget (s.set k v arg now).1.cache k).or
        (mget (s.set k v arg now).1.oldCache k)) =
      some ⟨v, specExpiryAmended arg s.maxAge now⟩ := by
  have hce : computeExpiry arg s.maxAge now =
      specExpiryAmended arg s.maxAge now := by
    cases arg <;> rfl
  unfold LRU.set
  cases hc : hasKey s.cache k
  · simp only [Bool.false_eq_true, if_false]
    unfold LRU.setInternal
    by_cases hrot : s.size + 1 ≥ (s.maxSize : Int)
    · rw [if_pos hrot]
      dsimp only
      rw [show mget ([] : EMap) k = none from rfl,
        msetE_of_not_has _ hc, mget_append_single_self _ hc, hce]
      rfl
    · rw [if_neg hrot]
      dsimp only
      rw [msetE_of_not_has _ hc, mget_append_single_self _ hc, hce]
      rfl
  · simp only [if_true]
    rw [mget_msetE_self, hce]
    rfl

/-- Claim C5: for every reachable cache state and fixed current time, the
full descending traversal equals the reverse of the full ascending
traversal (ascending: stale in insertion order skipping recent keys,
then recent in insertion order; descending: recent reversed, then stale
reversed excluding recent keys; same expiry pruning in both). -/
theorem claim5_asc_desc_duality (m : Nat) (a : JSNum) (t : List Op)
    (now : Int) (hm : 1 ≤ m) :
    ((execTrace (initLRU m a) t).entriesDescending now).1 =
      (((execTrace (initLRU m a) t).entriesAscending now).1).reverse := by
  have hw : WF (execTrace (initLRU m a) t) :=
    WF_execTrace t (initLRU m a)
      ⟨hm, rfl, by simpa [initLRU] using hm, by simp [initLRU, NodupKeys],
        by simp [initLRU, NodupKeys]⟩
  exact descAsc_duality _ now hw.nodup_cache hw.nodup_old

/-- Claim C5, witness. -/
theorem claim5_asc_desc_duality_witness :
    (1 : Nat) ≤ 3 ∧
      ((execTrace (initLRU 3 .posInf)
          [.set 1 1 .absent 0, .set 2 2 .absent 0, .set 3 3 .absent 0,
           .set 2 5 .absent 0, .set 4 4 .absent 0]).entriesDescending 0).1 =
        (((execTrace (initLRU 3 .posInf)
          [.set 1 1 .absent 0, .set 2 2 .absent 0, .set 3 3 .absent 0,
           .set 2 5 .absent 0, .set 4 4 .absent 0]).entriesAscending
          0).1).reverse :=
  ⟨by decide,
    claim5_asc_desc_duality 3 .posInf
      [.set 1 1 .absent 0, .set 2 2 .absent 0, .set 3 3 .absent 0,
       .set 2 5 .absent 0, .set 4 4 .absent 0] 0 (by decide)⟩

/-- Claim C6, counterexample.  The claim says `peek` never changes the
maps or counters and has exactly `get`'s expiry semantics.  Both parts
fail: peeking an expired entry lazily deletes it (the recent map and the
counter change, and the eviction callback fires); and a stale-generation
entry whose stored expiry is the falsy number 0 is returned by `peek`
but expired-deleted by `get`. -/
theorem claim6_counterexample :
    (let s := (LRU.set (initLRU 5 (.int 100)) 1 7 .absent 0).1;
      (s.peek 1 200).1 = none ∧ (s.peek 1 200).2.1 ≠ s ∧
        hasKey (s.peek 1 200).2.1.cache 1 = false ∧
        hasKey s.cache 1 = true ∧ (s.peek 1 200).2.1.size = 0 ∧
        s.size = 1 ∧ (s.peek 1 200).2.2 = [(1, 7)]) ∧
    (let s2 := (LRU.set (initLRU 1 .posInf) 1 7 (.num (.int 0)) 0).1;
      (s2.get 1 5).1 = none ∧ (s2.peek 1 5).1 = some 7) := by
  decide

/-- Claim C6 (amended): `peek` never promotes — after `peek(key)` the
state is either unchanged or exactly the state after `delete(key)` (the
lazy expiry deletion); a recent-generation hit behaves exactly like
`get`; whenever `peek` returns a value the state is unchanged and no
eviction fires; a stale hit whose expiry is truthy or not yet reached
returns the same value as `get` would; and a hit with a truthy, reached
expiry is deleted, returning nothing and firing the eviction callback.
(The original claim said `peek` never changes the state at all, and
matched `get` on every stale hit; lazy deletion and the falsy-expiry
guard of `#getItemValue` break those.) -/
theorem claim6_peek_amended (s : LRU) (k : Nat) (now : Int) :
    ((s.peek k now).2.1 = s ∨ (s.peek k now).2.1 = (s.delete k).2) ∧
    (hasKey s.cache k = true → s.peek k now = s.get k now) ∧
    (∀ v, (s.peek k now).1 = some v →
      (s.peek k now).2.1 = s ∧ (s.peek k now).2.2 = []) ∧
    (∀ it, mget s.cache k = none → mget s.oldCache k = some it →
      (expiryTruthy it.expiry = true ∨ expiredAt it now = false) →
      (s.peek k now).1 = (s.get k now).1) ∧
    (∀ it, (mget s.cache k = some it ∨
        (mget s.cache k = none ∧ mget s.oldCache k = some it)) →
      expiryTruthy it.expiry = true → expiredAt it now = true →
      s.peek k now = (none, (s.delete k).2, [(k, it.value)])) := by
  refine ⟨peek_snd_shape s k now, ?_, ?_, ?_, ?_⟩
  · intro hck
    cases hmc : mget s.cache k with
    | none =>
      rw [← mget_isSome_eq, hmc] at hck
      exact absurd hck (by simp)
    | some it => simp [LRU.peek, LRU.get, hmc]
  · intro v hv
    cases hmc : mget s.cache k with
    | some it =>
      have hdel : (s.delete k).1 = true := by
        have := hasKey_of_mget_some hmc
        simp [LRU.delete, this]
      cases ht : expiryTruthy it.expiry
      · constructor <;> simp [LRU.peek, LRU.getItemValue, hmc, ht]
      · cases he : expiredAt it now
        · constructor <;>
            simp [LRU.peek, LRU.getItemValue, LRU.getOrDeleteIfExpired,
              LRU.deleteIfExpired, hmc, ht, he]
        · exfalso
          simp [LRU.peek, LRU.getItemValue, LRU.getOrDeleteIfExpired,
            LRU.deleteIfExpired, hmc, ht, he, hdel] at hv
    | none =>
      cases hmo : mget s.oldCache k with
      | some it =>
        have hdel : (s.delete k).1 = true := by
          have := hasKey_of_mget_some hmo
          simp [LRU.delete, this]
        cases ht : expiryTruthy it.expiry
        · constructor <;> simp [LRU.peek, LRU.getItemValue, hmc, hmo, ht]
        · cases he : expiredAt it now
          · constructor <;>
              simp [LRU.peek, LRU.getItemValue, LRU.getOrDeleteIfExpired,
                LRU.deleteIfExpired, hmc, hmo, ht, he]
          · exfalso
            simp [LRU.peek, LRU.getItemValue, LRU.getOrDeleteIfExpired,
              LRU.deleteIfExpired, hmc, hmo, ht, he, hdel] at hv
      | none =>
        rw [LRU.peek] at hv
        simp [hmc, hmo] at hv
  · intro it hmc hmo hcond
    cases ht : expiryTruthy it.expiry
    · rcases hcond with hcond | he
      · rw [ht] at hcond
        exact absurd hcond (by simp)
      · simp [LRU.peek, LRU.get, LRU.getItemValue, LRU.deleteIfExpired,
          hmc, hmo, ht, he]
    · have hdel : (s.delete k).1 = true := by
        have := hasKey_of_mget_some hmo
        simp [LRU.delete, this]
      cases he : expiredAt it now
      · simp [LRU.peek, LRU.get, LRU.getItemValue, LRU.getOrDeleteIfExpired,
          LRU.deleteIfExpired, hmc, hmo, ht, he]
      · simp [LRU.peek, LRU.get, LRU.getItemValue, LRU.getOrDeleteIfExpired,
          LRU.deleteIfExpired, hmc, hmo, ht, he, hdel]
  · intro it hloc ht he
    rcases hloc with hmc | ⟨hmc, hmo⟩
    · have hdel : (s.delete k).1 = true := by
        have := hasKey_of_mget_some hmc
        simp [LRU.delete, this]
      simp [LRU.peek, LRU.getItemValue, LRU.getOrDeleteIfExpired,
        LRU.deleteIfExpired, hmc, ht, he, hdel]
    · have hdel : (s.delete k).1 = true := by
        have := hasKey_of_mget_some hmo
        simp [LRU.delete, this]
      simp [LRU.peek, LRU.getItemValue, LRU.getOrDeleteIfExpired,
        LRU.deleteIfExpired, hmc, hmo, ht, he, hdel]

/-- Claim C4 (amended), witness. -/
theorem claim4_expiry_stored_witness :
    ((mget ((initLRU 5 (.int 100)).set 1 7 (.num (.int 3)) 10).1.cache 1).or
        (mget ((initLRU 5 (.int 100)).set 1 7
          (.num (.int 3)) 10).1.oldCache 1)) =
      some ⟨7, specExpiryAmended (.num (.int 3))
        (initLRU 5 (.int 100)).maxAge 10⟩ :=
  claim4_expiry_stored (initLRU 5 (.int 100)) 1 7 (.num (.int 3)) 10

/-- Claim C6 (amended), witness. -/
theorem claim6_peek_amended_witness :
    hasKey evictDemo.cache 1 = true ∧
      evictDemo.peek 1 0 = evictDemo.get 1 0 :=
  ⟨by decide, (claim6_peek_amended evictDemo 1 0).2.1 (by decide)⟩

/-- Claim C7, counterexample.  The claim says the insert counter equals
the number of keys inserted via the insertion path since the last
rotation.  `delete` decrements the counter: after one insert and one
delete the counter is 0, yet one key was inserted since the last
rotation. -/
theorem claim7_counterexample :
    (ghostExec (initLRU 5 .posInf) (0, 0)
        [.set 1 1 .absent 0, .del 1]).2.1 = 1 ∧
      (execTrace (initLRU 5 .posInf) [.set 1 1 .absent 0, .del 1]).size = 0 ∧
      (execTrace (initLRU 5 .posInf) [.set 1 1 .absent 0, .del 1]).size ≠
        (ghostExec (initLRU 5 .posInf) (0, 0)
          [.set 1 1 .absent 0, .del 1]).2.1 := by
  decide

/-- Claim C7 (amended): over any trace of basic operations (set, get,
has, peek, delete, clear), the insert counter equals the number of keys
inserted into the recent generation via the insertion path since the
last rotation (or clear) minus the number of entries since removed from
the recent generation by `delete` or by lazy expiration; in-place
updates count toward neither.  (The original claim omitted the
subtracted removals.) -/
theorem claim7_insert_counter (m : Nat) (a : JSNum) (t : List Op)
    (hb : ∀ op ∈ t, isBasic op = true) :
    (ghostExec (initLRU m a) (0, 0) t).1 = execTrace (initLRU m a) t ∧
      (ghostExec (initLRU m a) (0, 0) t).1.size =
        (ghostExec (initLRU m a) (0, 0) t).2.1 -
          (ghostExec (initLRU m a) (0, 0) t).2.2 :=
  ⟨ghostExec_state t (initLRU m a) (0, 0),
    ghost_size t (initLRU m a) (0, 0) hb (by simp [initLRU])⟩

/-- Claim C7 (amended), witness. -/
theorem claim7_insert_counter_witness :
    (ghostExec (initLRU 3 .posInf) (0, 0)
        [.set 1 1 .absent 0, .set 2 2 .absent 0, .del 1]).1 =
      execTrace (initLRU 3 .posInf)
        [.set 1 1 .absent 0, .set 2 2 .absent 0, .del 1] ∧
      (ghostExec (initLRU 3 .posInf) (0, 0)
          [.set 1 1 .absent 0, .set 2 2 .absent 0, .del 1]).1.size =
        (ghostExec (initLRU 3 .posInf) (0, 0)
            [.set 1 1 .absent 0, .set 2 2 .absent 0, .del 1]).2.1 -
          (ghostExec (initLRU 3 .posInf) (0, 0)
            [.set 1 1 .absent 0, .set 2 2 .absent 0, .del 1]).2.2 :=
  claim7_insert_counter 3 .posInf
    [.set 1 1 .absent 0, .set 2 2 .absent 0, .del 1] (by decide)

/-- Claim C8: `delete(key)` removes the key from both generations
unconditionally (regardless of expiry), decrements the insert counter
exactly when the recent generation had the key, never fires the
eviction callback, and returns true iff the key was present in either
generation. -/
theorem claim8_delete_semantics (s : LRU) (k : Nat) :
    (s.delete k).1 = (hasKey s.oldCache k || hasKey s.cache k) ∧
      (s.delete k).2.cache = eraseKey s.cache k ∧
      (s.delete k).2.oldCache = eraseKey s.oldCache k ∧
      hasKey (s.delete k).2.cache k = false ∧
      hasKey (s.delete k).2.oldCache k = false ∧
      (s.delete k).2.size =
        (if hasKey s.cache k then s.size - 1 else s.size) ∧
      (stepEv s (.del k)).2 = [] :=
  ⟨rfl, rfl, rfl, hasKey_eraseKey_self s.cache k,
    hasKey_eraseKey_self s.oldCache k, rfl, rfl⟩

/-- Claim C8, witness. -/
theorem claim8_delete_semantics_witness :
    (evictDemo.delete 2).1 =
        (hasKey evictDemo.oldCache 2 || hasKey evictDemo.cache 2) ∧
      (evictDemo.delete 2).2.cache = eraseKey evictDemo.cache 2 ∧
      (evictDemo.delete 2).2.oldCache = eraseKey evictDemo.oldCache 2 ∧
      hasKey (evictDemo.delete 2).2.cache 2 = false ∧
      hasKey (evictDemo.delete 2).2.oldCache 2 = false ∧
      (evictDemo.delete 2).2.size =
        (if hasKey evictDemo.cache 2 then evictDemo.size - 1
          else evictDemo.size) ∧
      (stepEv evictDemo (.del 2)).2 = [] :=
  claim8_delete_semantics evictDemo 2

/-- Claim C9 (implicit): after every trace of public operations from a
fresh cache with positive capacity, the insert counter equals the
number of entries in the recent generation map. -/
theorem claim9_counter_eq_recent_size (m : Nat) (a : JSNum) (t : List Op)
    (hm : 1 ≤ m) :
    (execTrace (initLRU m a) t).size =
      ((execTrace (initLRU m a) t).cache.length : Int) :=
  (WF_execTrace t (initLRU m a)
    ⟨hm, rfl, by simpa [initLRU] using hm, by simp [initLRU, NodupKeys],
      by simp [initLRU, NodupKeys]⟩).size_eq

/-- Claim C9, witness. -/
theorem claim9_counter_eq_recent_size_witness :
    (1 : Nat) ≤ 2 ∧
      (execTrace (initLRU 2 .posInf)
          [.set 1 1 .absent 0, .set 2 2 .absent 0, .get 1 0, .del 1,
           .evict (.int 1) 0]).size =
        ((execTrace (initLRU 2 .posInf)
          [.set 1 1 .absent 0, .set 2 2 .absent 0, .get 1 0, .del 1,
           .evict (.int 1) 0]).cache.length : Int) :=
  ⟨by decide,
    claim9_counter_eq_recent_size 2 .posInf
      [.set 1 1 .absent 0, .set 2 2 .absent 0, .get 1 0, .del 1,
       .evict (.int 1) 0] (by decide)⟩

/-- Claim C10 (implicit): a rotation can fire `onEviction` for a key that
is still present afterwards.  With `maxSize = 2`: key 10 is re-set so it
has a stale copy (value 1) and a recent copy (value 3); the rotation
triggered by the next insert fires the callback with the stale copy
while `has(10)` stays true and `get(10)` returns the recent value. -/
theorem claim10_eviction_of_present_key :
    (let s3 := execTrace (initLRU 2 .posInf)
        [.set 10 1 .absent 0, .set 20 2 .absent 0, .set 10 3 .absent 0];
      (stepEv s3 (.set 30 4 .absent 0)).2 = [(10, 1), (20, 2)] ∧
        ((stepEv s3 (.set 30 4 .absent 0)).1.has 10 0).1 = true ∧
        ((stepEv s3 (.set 30 4 .absent 0)).1.get 10 0).1 = some 3) := by
  decide
